import Mathlib

/-!
# Verification of the NIQE metric implementation (`Evaluate/niqe.py`)

Shallow embedding of the core NIQE pipeline — `estimate_aggd_param`,
`compute_feature`, `niqe` and `calculate_niqe` — and proofs settling the
claims about it.

Modelling conventions:

* A floating-point value is `RVal := Option ℝ`; `none` models IEEE NaN and
  `some x` a (finite) real.  Real arithmetic is modelled exactly; the
  claims settled here concern NaN propagation, shapes, orders and signs,
  not rounding error.  Infinities do not arise on any path relevant to the
  claims (every zero denominator in the embedded code comes with a zero or
  NaN numerator), so they are not modelled; where a zero denominator can
  occur at all the embedding returns NaN, matching IEEE `0/0`.
* A 2-D numpy array is a `List (List RVal)` of its rows; the arrays the
  code builds are rectangular.
* Python exceptions are modelled by `Except PyErr`; the `PyErr`
  constructors mirror the exception classes the interpreter would raise
  (`AssertionError` from the `assert`, `numpy.AxisError` from
  `np.concatenate` on 1-D inputs, `numpy.linalg.LinAlgError` from
  `np.linalg.pinv` on non-finite input).
-/

open Classical

set_option maxRecDepth 8000

noncomputable section

/-- A numpy floating-point scalar: `none` is NaN, `some x` a finite real. -/
abbrev RVal := Option ℝ

/-- Float addition; NaN propagates. -/
def fadd : RVal → RVal → RVal
  | some a, some b => some (a + b)
  | _, _ => none

/-- Float subtraction; NaN propagates. -/
def fsub : RVal → RVal → RVal
  | some a, some b => some (a - b)
  | _, _ => none

/-- Float multiplication; NaN propagates. -/
def fmul : RVal → RVal → RVal
  | some a, some b => some (a * b)
  | _, _ => none

/-- Float division; NaN propagates.  `0/0` is NaN.  In the embedded code a
zero denominator only ever occurs together with a zero (or NaN) numerator
— the empty-mean and all-zero-block cases — so mapping every zero
denominator to NaN is faithful on all paths the program reaches; the IEEE
`x/0 = ±inf` case for `x ≠ 0` does not arise. -/
def fdiv : RVal → RVal → RVal
  | some a, some b => if b = 0 then none else some (a / b)
  | _, _ => none

/-- `np.sqrt`: NaN on negative arguments, NaN propagates. -/
def fsqrt : RVal → RVal
  | some a => if a < 0 then none else some (Real.sqrt a)
  | none => none

/-- `np.abs`; NaN propagates. -/
def fabs : RVal → RVal
  | some a => some |a|
  | none => none

/-- Squaring, `x**2`. -/
def fsq (x : RVal) : RVal := fmul x x

/-- `np.sum` of a 1-D array (empty sum is `0`); NaN propagates. -/
def fsum (l : List RVal) : RVal := l.foldl fadd (some 0)

/-- `np.mean` of a 1-D array: sum divided by length; the mean of an empty
array is NaN (`0/0`), and NaN propagates. -/
def fmean (l : List RVal) : RVal := fdiv (fsum l) (some (l.length : ℝ))

/-- The test `x < 0` as numpy evaluates it on floats: false on NaN. -/
def isNegV : RVal → Bool
  | some a => decide (a < 0)
  | none => false

/-- The test `x > 0` as numpy evaluates it on floats: false on NaN. -/
def isPosV : RVal → Bool
  | some a => decide (0 < a)
  | none => false

/-- The candidate grid `gam = np.arange(0.2, 10.001, 0.001)` (niqe.py
line 19), 9801 values `0.2 + i/1000`. -/
def gamGrid : List ℝ := (List.range 9801).map (fun (i : ℕ) => ((i : ℝ) + 200) / 1000)

/-- `r_gam = Γ(2/g)² / (Γ(1/g)·Γ(3/g))` precomputed over the grid
(niqe.py lines 20–21). -/
def rGamTable : List ℝ :=
  gamGrid.map (fun g => (Real.Gamma (2 / g)) ^ 2 / (Real.Gamma (1 / g) * Real.Gamma (3 / g)))

/-- Helper for `argminR`: fold over the tail keeping the first minimal
value seen so far and its index. -/
def argminAux : List ℝ → ℝ → ℕ → ℕ → ℕ
  | [], _, _, best => best
  | x :: xs, bv, i, best =>
      if x < bv then argminAux xs x (i + 1) i else argminAux xs bv (i + 1) best

/-- Index of the first minimum of a NaN-free array (`np.argmin`). -/
def argminR : List ℝ → ℕ
  | [] => 0
  | x :: xs => argminAux xs x 1 0

/-- `np.argmin` on floats: if any entry is NaN the index of the first NaN
is returned, otherwise the index of the first minimum. -/
def nanArgmin (l : List RVal) : ℕ :=
  if l.any (·.isNone) then l.findIdx (·.isNone) else argminR (l.map (fun x => x.getD 0))

/-- `left_std = np.sqrt(np.mean(block[block < 0]**2))` (niqe.py line 23). -/
def aggdLeftStd (block : List RVal) : RVal :=
  fsqrt (fmean ((block.filter isNegV).map fsq))

/-- `right_std = np.sqrt(np.mean(block[block > 0]**2))` (niqe.py line 24). -/
def aggdRightStd (block : List RVal) : RVal :=
  fsqrt (fmean ((block.filter isPosV).map fsq))

/-- `gammahat = left_std / right_std` (niqe.py line 25). -/
def aggdGammahat (block : List RVal) : RVal :=
  fdiv (aggdLeftStd block) (aggdRightStd block)

/-- `rhat = mean(|block|)² / mean(block²)` (niqe.py line 26). -/
def aggdRhat (block : List RVal) : RVal :=
  fdiv (fsq (fmean (block.map fabs))) (fmean (block.map fsq))

/-- `rhatnorm = (rhat·(γ̂³+1)·(γ̂+1)) / ((γ̂²+1)²)` (niqe.py line 27). -/
def aggdRhatnorm (block : List RVal) : RVal :=
  fdiv
    (fmul (fmul (aggdRhat block)
        (fadd (fmul (fsq (aggdGammahat block)) (aggdGammahat block)) (some 1)))
      (fadd (aggdGammahat block) (some 1)))
    (fsq (fadd (fsq (aggdGammahat block)) (some 1)))

/-- The squared-error array `(r_gam - rhatnorm)**2` (niqe.py line 28). -/
def aggdErrs (block : List RVal) : List RVal :=
  rGamTable.map (fun r => fsq (fsub (some r) (aggdRhatnorm block)))

/-- `alpha = gam[np.argmin((r_gam - rhatnorm)**2)]` (niqe.py lines 28–30). -/
def aggdAlpha (block : List RVal) : ℝ :=
  gamGrid.getD (nanArgmin (aggdErrs block)) 0

/-- The common factor `np.sqrt(gamma(1/alpha) / gamma(3/alpha))` of the
betas (niqe.py lines 31–32). -/
def aggdBetaFactor (block : List RVal) : RVal :=
  fsqrt (fdiv (some (Real.Gamma (1 / aggdAlpha block)))
    (some (Real.Gamma (3 / aggdAlpha block))))

/-- `estimate_aggd_param` (niqe.py lines 10–33), taking the flattened
block.  Returns `(alpha, beta_l, beta_r)`; `alpha` is always a real drawn
from `gamGrid`, the betas may be NaN. -/
def estimate_aggd_param (block : List RVal) : ℝ × RVal × RVal :=
  (aggdAlpha block,
    fmul (aggdLeftStd block) (aggdBetaFactor block),
    fmul (aggdRightStd block) (aggdBetaFactor block))

/-! ## Basic lemmas about the value model -/

theorem fadd_none_right (x : RVal) : fadd x none = none := by cases x <;> rfl

theorem fadd_none_left (x : RVal) : fadd none x = none := rfl

theorem fsub_none_right (x : RVal) : fsub x none = none := by cases x <;> rfl

theorem fmul_none_right (x : RVal) : fmul x none = none := by cases x <;> rfl

theorem fmul_none_left (x : RVal) : fmul none x = none := rfl

theorem fdiv_none_right (x : RVal) : fdiv x none = none := by cases x <;> rfl

theorem fdiv_none_left (x : RVal) : fdiv none x = none := rfl

theorem fsq_none : fsq none = none := rfl

/-- `fsqrt` is NaN or a non-negative real. -/
theorem fsqrt_cases (x : RVal) : fsqrt x = none ∨ ∃ v, fsqrt x = some v ∧ 0 ≤ v := by
  cases x with
  | none => exact Or.inl rfl
  | some a =>
      by_cases h : a < 0
      · exact Or.inl (by simp [fsqrt, h])
      · exact Or.inr ⟨Real.sqrt a, by simp [fsqrt, h], Real.sqrt_nonneg a⟩

/-- The product of two NaN-or-non-negative values is NaN or non-negative. -/
theorem fmul_nonneg_cases {x y : RVal}
    (hx : x = none ∨ ∃ v, x = some v ∧ 0 ≤ v) (hy : y = none ∨ ∃ v, y = some v ∧ 0 ≤ v) :
    fmul x y = none ∨ ∃ v, fmul x y = some v ∧ 0 ≤ v := by
  rcases hx with hx | ⟨a, rfl, ha⟩
  · subst hx; exact Or.inl rfl
  rcases hy with hy | ⟨b, rfl, hb⟩
  · subst hy; exact Or.inl (fmul_none_right _)
  · exact Or.inr ⟨a * b, rfl, mul_nonneg ha hb⟩

theorem gamGrid_length : gamGrid.length = 9801 := by
  rw [gamGrid, List.length_map, List.length_range]

theorem rGamTable_length : rGamTable.length = 9801 := by
  rw [rGamTable, List.length_map, gamGrid_length]

theorem gamGrid_getElem (i : ℕ) (h : i < gamGrid.length) :
    gamGrid[i] = ((i : ℝ) + 200) / 1000 := by
  simp only [gamGrid, List.getElem_map, List.getElem_range]

/-- Every grid candidate lies in `[0.2, 10]`. -/
theorem gamGrid_bounds (i : ℕ) (h : i < 9801) :
    1 / 5 ≤ (((i : ℝ) + 200) / 1000) ∧ (((i : ℝ) + 200) / 1000) ≤ 10 := by
  have h0 : (0 : ℝ) ≤ i := Nat.cast_nonneg i
  have h1 : (i : ℝ) ≤ 9800 := by exact_mod_cast Nat.lt_succ_iff.mp h
  constructor
  · rw [div_le_div_iff (by norm_num) (by norm_num)]
    linarith
  · rw [div_le_iff (by norm_num)]
    linarith

theorem argminAux_lt {xs : List ℝ} {bv : ℝ} {i best : ℕ} (h : best < i) :
    argminAux xs bv i best < i + xs.length := by
  induction xs generalizing bv i best with
  | nil => simpa [argminAux] using h
  | cons x xs ih =>
      by_cases hx : x < bv
      · simpa [argminAux, hx, Nat.add_comm, Nat.add_left_comm] using
          Nat.lt_of_lt_of_le (ih (Nat.lt_succ_self i)) (by omega)
      · simpa [argminAux, hx, Nat.add_comm, Nat.add_left_comm] using
          Nat.lt_of_lt_of_le (ih (Nat.lt_succ_of_lt h)) (by omega)

theorem argminR_lt {l : List ℝ} (h : l ≠ []) : argminR l < l.length := by
  cases l with
  | nil => exact absurd rfl h
  | cons x xs =>
      have := @argminAux_lt xs x 1 0 Nat.zero_lt_one
      simpa [argminR, Nat.add_comm] using this

theorem nanArgmin_lt {l : List RVal} (h : l ≠ []) : nanArgmin l < l.length := by
  unfold nanArgmin
  by_cases hn : l.any (·.isNone)
  · simp only [hn, if_true]
    rcases List.any_eq_true.mp hn with ⟨x, hx, hpx⟩
    exact List.findIdx_lt_length_of_exists ⟨x, hx, hpx⟩
  · simp only [hn, if_false]
    have hne : l.map (fun x => x.getD 0) ≠ [] := by
      simpa using h
    simpa using argminR_lt hne

theorem fsqrt_none : fsqrt none = none := rfl

theorem fmean_nil : fmean [] = none := by simp [fmean, fsum, fdiv]

theorem nanArgmin_map_none {α : Type} (l : List α) (hl : l ≠ []) :
    nanArgmin (l.map (fun _ => (none : RVal))) = 0 := by
  obtain ⟨a, t, rfl⟩ := List.exists_cons_of_ne_nil hl
  simp [nanArgmin, List.findIdx_cons]

theorem nanArgmin_map_some {α : Type} (l : List α) (f : α → ℝ) :
    nanArgmin (l.map (fun a => some (f a))) = argminR (l.map f) := by
  simp [nanArgmin, List.any_map, Function.comp_def]

theorem rGamTable_ne_nil : rGamTable ≠ [] := by
  intro h
  have := rGamTable_length
  rw [h] at this
  simp at this

theorem aggdErrs_length (block : List RVal) : (aggdErrs block).length = 9801 := by
  rw [aggdErrs, List.length_map, rGamTable_length]

theorem aggdErrs_ne_nil (block : List RVal) : aggdErrs block ≠ [] := by
  intro h
  have := aggdErrs_length block
  rw [h] at this
  simp at this

/-- The selected `alpha` is always an element of the candidate grid. -/
theorem aggd_alpha_mem (block : List RVal) :
    ∃ i : ℕ, i < 9801 ∧ (estimate_aggd_param block).1 = ((i : ℝ) + 200) / 1000 := by
  have hk : nanArgmin (aggdErrs block) < 9801 := by
    have := nanArgmin_lt (aggdErrs_ne_nil block)
    have hlen := aggdErrs_length block
    omega
  have hk' : nanArgmin (aggdErrs block) < gamGrid.length := by
    rw [gamGrid_length]; exact hk
  have halpha : aggdAlpha block = ((nanArgmin (aggdErrs block) : ℝ) + 200) / 1000 := by
    rw [aggdAlpha, List.getD_eq_getElem gamGrid 0 hk']
    exact gamGrid_getElem _ hk'
  refine ⟨nanArgmin (aggdErrs block), hk, ?_⟩
  simp only [estimate_aggd_param]
  exact halpha

theorem aggdLeftStd_cases (block : List RVal) :
    aggdLeftStd block = none ∨ ∃ v, aggdLeftStd block = some v ∧ 0 ≤ v := by
  rw [aggdLeftStd]; exact fsqrt_cases _

theorem aggdRightStd_cases (block : List RVal) :
    aggdRightStd block = none ∨ ∃ v, aggdRightStd block = some v ∧ 0 ≤ v := by
  rw [aggdRightStd]; exact fsqrt_cases _

theorem aggdBetaFactor_cases (block : List RVal) :
    aggdBetaFactor block = none ∨ ∃ v, aggdBetaFactor block = some v ∧ 0 ≤ v := by
  rw [aggdBetaFactor]; exact fsqrt_cases _

/-- Both betas are NaN or non-negative, for every input. -/
theorem aggd_beta_cases (block : List RVal) :
    ((estimate_aggd_param block).2.1 = none ∨
      ∃ v, (estimate_aggd_param block).2.1 = some v ∧ 0 ≤ v) ∧
    ((estimate_aggd_param block).2.2 = none ∨
      ∃ v, (estimate_aggd_param block).2.2 = some v ∧ 0 ≤ v) := by
  simp only [estimate_aggd_param]
  exact ⟨fmul_nonneg_cases (aggdLeftStd_cases block) (aggdBetaFactor_cases block),
    fmul_nonneg_cases (aggdRightStd_cases block) (aggdBetaFactor_cases block)⟩

theorem fdiv_some_of_ne (a : ℝ) {b : ℝ} (hb : b ≠ 0) : fdiv (some a) (some b) = some (a / b) := by
  simp [fdiv, hb]

theorem fsqrt_some_of_nonneg {a : ℝ} (ha : 0 ≤ a) : fsqrt (some a) = some (Real.sqrt a) := by
  simp [fsqrt, not_lt.mpr ha]

theorem fmul_some (a b : ℝ) : fmul (some a) (some b) = some (a * b) := rfl

theorem fadd_some (a b : ℝ) : fadd (some a) (some b) = some (a + b) := rfl

theorem fsub_some (a b : ℝ) : fsub (some a) (some b) = some (a - b) := rfl

theorem aggdLeftStd_empty {block : List RVal} (h : block.filter isNegV = []) :
    aggdLeftStd block = none := by
  rw [aggdLeftStd, h]
  simp [fmean_nil, fsqrt_none]

theorem aggdRightStd_empty {block : List RVal} (h : block.filter isPosV = []) :
    aggdRightStd block = none := by
  rw [aggdRightStd, h]
  simp [fmean_nil, fsqrt_none]

theorem aggdGammahat_none_left {block : List RVal} (h : aggdLeftStd block = none) :
    aggdGammahat block = none := by
  rw [aggdGammahat, h]
  exact fdiv_none_left _

theorem aggdGammahat_none_right {block : List RVal} (h : aggdRightStd block = none) :
    aggdGammahat block = none := by
  rw [aggdGammahat, h]
  exact fdiv_none_right _

theorem aggdRhatnorm_none {block : List RVal} (h : aggdGammahat block = none) :
    aggdRhatnorm block = none := by
  rw [aggdRhatnorm, h]
  simp [fsq_none, fmul_none_left, fmul_none_right, fadd_none_left, fadd_none_right,
    fdiv_none_left, fdiv_none_right]

theorem aggdErrs_all_none {block : List RVal} (h : aggdRhatnorm block = none) :
    aggdErrs block = rGamTable.map (fun _ => none) := by
  rw [aggdErrs, h]
  simp [fsub_none_right, fsq_none]

/-- When `rhatnorm` is NaN the whole error array is NaN and `np.argmin`
returns index 0, so `alpha` is the first candidate `0.2`. -/
theorem aggdAlpha_degenerate {block : List RVal} (h : aggdRhatnorm block = none) :
    aggdAlpha block = 1 / 5 := by
  rw [aggdAlpha, aggdErrs_all_none h, nanArgmin_map_none _ rGamTable_ne_nil]
  have h0 : 0 < gamGrid.length := by rw [gamGrid_length]; norm_num
  rw [List.getD_eq_getElem gamGrid 0 h0, gamGrid_getElem 0 h0]
  norm_num

theorem aggd_no_negative {block : List RVal} (h : block.filter isNegV = []) :
    (estimate_aggd_param block).1 = 1 / 5 ∧ (estimate_aggd_param block).2.1 = none := by
  have hl := aggdLeftStd_empty h
  have hrn := aggdRhatnorm_none (aggdGammahat_none_left hl)
  constructor
  · simp only [estimate_aggd_param]
    exact aggdAlpha_degenerate hrn
  · simp only [estimate_aggd_param]
    rw [hl]
    exact fmul_none_left _

theorem aggd_no_positive {block : List RVal} (h : block.filter isPosV = []) :
    (estimate_aggd_param block).1 = 1 / 5 ∧ (estimate_aggd_param block).2.2 = none := by
  have hr := aggdRightStd_empty h
  have hrn := aggdRhatnorm_none (aggdGammahat_none_right hr)
  constructor
  · simp only [estimate_aggd_param]
    exact aggdAlpha_degenerate hrn
  · simp only [estimate_aggd_param]
    rw [hr]
    exact fmul_none_left _

/-- Evaluate the beta factor once `alpha` is known: the Gamma arguments are
positive, so the factor is a real square root. -/
theorem aggdBetaFactor_eval {block : List RVal} {a : ℝ} (h : aggdAlpha block = a)
    (ha : 0 < a) :
    aggdBetaFactor block = some (Real.sqrt (Real.Gamma (1 / a) / Real.Gamma (3 / a))) := by
  have h1 : 0 < Real.Gamma (1 / a) := Real.Gamma_pos_of_pos (by positivity)
  have h3 : 0 < Real.Gamma (3 / a) := Real.Gamma_pos_of_pos (by positivity)
  rw [aggdBetaFactor, h, fdiv_some_of_ne _ (ne_of_gt h3),
    fsqrt_some_of_nonneg (le_of_lt (div_pos h1 h3))]

/-- The right standard deviation of the concrete block `[1.0]`. -/
theorem aggdRightStd_one : aggdRightStd [some (1 : ℝ)] = some 1 := by
  have hfil : ([some (1 : ℝ)] : List RVal).filter isPosV = [some 1] := by
    simp [isPosV]
  rw [aggdRightStd, hfil]
  have h1 : ([some (1 : ℝ)] : List RVal).map fsq = [some 1] := by
    simp [fsq, fmul]
  rw [h1]
  have h2 : fmean [some (1 : ℝ)] = some 1 := by
    simp only [fmean, fsum, List.foldl, fadd_some, List.length_cons, List.length_nil]
    rw [fdiv_some_of_ne _ (by push_cast; norm_num : (((0 + 1 : ℕ) : ℝ)) ≠ 0)]
    norm_num
  rw [h2, fsqrt_some_of_nonneg (by norm_num : (0:ℝ) ≤ 1), Real.sqrt_one]

/-- C6: for every numeric block (including strictly positive, strictly
negative and zero-variance ones) `estimate_aggd_param` returns a triple in
which `alpha` lies in the fixed 9801-candidate grid
`{0.2, 0.201, …, 10.0}` — hence `0.2 ≤ alpha ≤ 10`, never out of grid —
and each of `beta_l`, `beta_r` is either a non-negative real or NaN;
degenerate input yields NaN components rather than an error (the
embedding is a total function). -/
theorem C6_aggd_param_ranges (block : List RVal) :
    gamGrid.length = 9801 ∧
    (∃ i : ℕ, i < 9801 ∧ (estimate_aggd_param block).1 = ((i : ℝ) + 200) / 1000) ∧
    1 / 5 ≤ (estimate_aggd_param block).1 ∧ (estimate_aggd_param block).1 ≤ 10 ∧
    ((estimate_aggd_param block).2.1 = none ∨
      ∃ v, (estimate_aggd_param block).2.1 = some v ∧ 0 ≤ v) ∧
    ((estimate_aggd_param block).2.2 = none ∨
      ∃ v, (estimate_aggd_param block).2.2 = some v ∧ 0 ≤ v) := by
  obtain ⟨i, hi, ha⟩ := aggd_alpha_mem block
  obtain ⟨h1, h2⟩ := aggd_beta_cases block
  obtain ⟨hb1, hb2⟩ := gamGrid_bounds i hi
  refine ⟨gamGrid_length, ⟨i, hi, ha⟩, ?_, ?_, h1, h2⟩
  · rw [ha]; exact hb1
  · rw [ha]; exact hb2

/-- C10 counterexample: the block `[1.0]` has no strictly-negative
element, so by the claim both betas should be NaN; but `beta_r` is a real
number (`right_std` is 1 and the Gamma factor is a real square root), so
the claim as stated is false at this input. -/
theorem C10_counterexample_one_sided_block :
    ([some (1 : ℝ)] : List RVal).filter isNegV = [] ∧
    (estimate_aggd_param [some (1 : ℝ)]).2.2 ≠ none := by
  have hneg : ([some (1 : ℝ)] : List RVal).filter isNegV = [] := by
    simp [isNegV]
  have hrn := aggdRhatnorm_none (aggdGammahat_none_left (aggdLeftStd_empty hneg))
  have ha := aggdAlpha_degenerate hrn
  have hbf := aggdBetaFactor_eval ha (by norm_num)
  refine ⟨hneg, ?_⟩
  simp only [estimate_aggd_param]
  rw [aggdRightStd_one, hbf, fmul_some]
  exact Option.some_ne_none _

/-- C10 (amended): for every block with no strictly-negative element, or
with no strictly-positive element, `alpha` equals the first grid candidate
`0.2` (the argmin over the all-NaN squared-error array selects index 0),
so `alpha` itself is never NaN; the beta on the empty-sign side is NaN.
(The beta of the other side is NaN only when that side is empty as well,
e.g. for an all-zero block — see the counterexample.) -/
theorem C10_degenerate_alpha_first_candidate (block : List RVal) :
    (block.filter isNegV = [] →
      (estimate_aggd_param block).1 = 1 / 5 ∧ (estimate_aggd_param block).2.1 = none) ∧
    (block.filter isPosV = [] →
      (estimate_aggd_param block).1 = 1 / 5 ∧ (estimate_aggd_param block).2.2 = none) :=
  ⟨fun h => aggd_no_negative h, fun h => aggd_no_positive h⟩

/-- Witness for C10 at the all-zero one-element block: both sign filters
are empty, `alpha` is `0.2` and both betas are NaN. -/
theorem C10_witness :
    (([some (0 : ℝ)] : List RVal).filter isNegV = [] ∧
      ([some (0 : ℝ)] : List RVal).filter isPosV = []) ∧
    (estimate_aggd_param [some (0 : ℝ)]).1 = 1 / 5 ∧
    (estimate_aggd_param [some (0 : ℝ)]).2.1 = none ∧
    (estimate_aggd_param [some (0 : ℝ)]).2.2 = none := by
  have hneg : ([some (0 : ℝ)] : List RVal).filter isNegV = [] := by
    simp [isNegV]
  have hpos : ([some (0 : ℝ)] : List RVal).filter isPosV = [] := by
    simp [isPosV]
  obtain ⟨ha, hbl⟩ := (C10_degenerate_alpha_first_candidate [some (0 : ℝ)]).1 hneg
  obtain ⟨-, hbr⟩ := (C10_degenerate_alpha_first_candidate [some (0 : ℝ)]).2 hpos
  exact ⟨⟨hneg, hpos⟩, ha, hbl, hbr⟩

/-! ## 2-D arrays and the feature extractor -/

/-- A 2-D numpy array as the list of its rows. -/
abbrev Mat := List (List RVal)

/-- Row-major flattening, `block.flatten()` (niqe.py line 18). -/
def npFlatten (m : Mat) : List RVal := m.flatten

/-- Number of columns of a 2-D array: the length of the first row (the
arrays the code builds are rectangular). -/
def ncols (m : Mat) : ℕ := (m.head?.getD []).length

/-- Entry lookup `m[i][j]`; NaN when out of range (never reached on the
paths the embedded code takes). -/
def mget (m : Mat) (i j : ℕ) : RVal := (m.getD i []).getD j none

/-- `np.roll(block, (a, b), axis=(0, 1))` (niqe.py line 53): circular
(toroidal, not zero-padded) shift by `a` downwards and `b` to the right
simultaneously: entry `(i, j)` of the result is entry
`((i - a) mod h, (j - b) mod w)` of the input. -/
def np_roll2 (m : Mat) (s : ℤ × ℤ) : Mat :=
  (List.range m.length).map (fun (i : ℕ) =>
    (List.range (ncols m)).map (fun (j : ℕ) =>
      mget m (((i : ℤ) - s.1) % (m.length : ℤ)).toNat
        (((j : ℤ) - s.2) % ((ncols m) : ℤ)).toNat))

/-- Element-wise product of two arrays. -/
def ewMul (a b : Mat) : Mat := List.zipWith (List.zipWith fmul) a b

/-- The four shift vectors `[[0, 1], [1, 0], [1, 1], [1, -1]]` of
niqe.py line 51, in order. -/
def featShifts : List (ℤ × ℤ) := [(0, 1), (1, 0), (1, 1), (1, -1)]

/-- The four features contributed by one shift (niqe.py lines 52–57):
`alpha`, `mean = (β_r − β_l)·(Γ(2/α)/Γ(1/α))`, `β_l`, `β_r` of the AGGD
fit of the element-wise product of the block with its rolled copy. -/
def featOfShift (m : Mat) (s : ℤ × ℤ) : List RVal :=
  let t := estimate_aggd_param (npFlatten (ewMul m (np_roll2 m s)))
  [some t.1,
   fmul (fsub t.2.2 t.2.1)
     (fdiv (some (Real.Gamma (2 / t.1))) (some (Real.Gamma (1 / t.1)))),
   t.2.1, t.2.2]

/-- `compute_feature` (niqe.py lines 36–58): the 18 features of a block —
its own `alpha` and `(β_l + β_r)/2`, then the four features of each of the
four shifts in order. -/
def compute_feature (m : Mat) : List RVal :=
  let t0 := estimate_aggd_param (npFlatten m)
  [some t0.1, fdiv (fadd t0.2.1 t0.2.2) (some 2)] ++ featShifts.flatMap (featOfShift m)

/-- Entry lookup in an array built from nested index ranges. -/
theorem mget_of_ranges (h w : ℕ) (f : ℕ → ℕ → RVal) (i j : ℕ) (hi : i < h) (hj : j < w) :
    mget ((List.range h).map (fun a => (List.range w).map (fun b => f a b))) i j = f i j := by
  have h1 : ((List.range h).map (fun a => (List.range w).map (fun b => f a b))).getD i []
      = (List.range w).map (fun b => f i b) := by
    rw [List.getD_eq_getElem?_getD, List.getElem?_map, List.getElem?_range hi]
    rfl
  have h2 : ((List.range w).map (fun b => f i b)).getD j none = f i j := by
    rw [List.getD_eq_getElem?_getD, List.getElem?_map, List.getElem?_range hj]
    rfl
  rw [mget, h1, h2]

theorem compute_feature_length (m : Mat) : (compute_feature m).length = 18 := by
  simp [compute_feature, featShifts, featOfShift]

/-- C7: for every 2-D block, `compute_feature` returns exactly 18 values
in the fixed order — the block's own `alpha` and `(β_l + β_r)/2`, then for
each of the four shifts `(0,1), (1,0), (1,1), (1,-1)` (each a circular
toroidal roll along both axes followed by an element-wise product with the
block) the four values `alpha`, `mean = (β_r − β_l)·Γ(2/α)/Γ(1/α)`,
`β_l`, `β_r`, in that order; and the roll is toroidal: entry `(i, j)` of
the rolled block is entry `((i − a) mod h, (j − b) mod w)` of the block. -/
theorem C7_feature_vector_shape_order (m : Mat) :
    (compute_feature m).length = 18 ∧
    compute_feature m =
      [some (estimate_aggd_param (npFlatten m)).1,
        fdiv (fadd (estimate_aggd_param (npFlatten m)).2.1
          (estimate_aggd_param (npFlatten m)).2.2) (some 2)]
      ++ featOfShift m (0, 1) ++ featOfShift m (1, 0)
      ++ featOfShift m (1, 1) ++ featOfShift m (1, -1) ∧
    (∀ s : ℤ × ℤ, ∀ i j : ℕ, i < m.length → j < ncols m →
      mget (np_roll2 m s) i j =
        mget m (((i : ℤ) - s.1) % (m.length : ℤ)).toNat
          (((j : ℤ) - s.2) % ((ncols m) : ℤ)).toNat) := by
  refine ⟨compute_feature_length m, ?_, ?_⟩
  · simp [compute_feature, featShifts]
  · intro s i j hi hj
    rw [np_roll2]
    exact mget_of_ranges m.length (ncols m) _ i j hi hj

/-- Witness for C7: the roll characterization applied to a concrete 2×2
block at the shift `(1, 1)` and entry `(1, 0)`. -/
theorem C7_witness :
    (1 < ([[some (1 : ℝ), some 2], [some 3, some 4]] : Mat).length) ∧
    (0 < ncols ([[some (1 : ℝ), some 2], [some 3, some 4]] : Mat)) ∧
    mget (np_roll2 ([[some (1 : ℝ), some 2], [some 3, some 4]] : Mat) (1, 1)) 1 0 =
      mget ([[some (1 : ℝ), some 2], [some 3, some 4]] : Mat)
        ((((1 : ℕ) : ℤ) - 1) % (([[some (1 : ℝ), some 2], [some 3, some 4]] : Mat).length : ℤ)).toNat
        ((((0 : ℕ) : ℤ) - 1) % ((ncols ([[some (1 : ℝ), some 2], [some 3, some 4]] : Mat)) : ℤ)).toNat := by
  have h1 : 1 < ([[some (1 : ℝ), some 2], [some 3, some 4]] : Mat).length := by
    simp
  have h2 : 0 < ncols ([[some (1 : ℝ), some 2], [some 3, some 4]] : Mat) := by
    simp [ncols]
  exact ⟨h1, h2,
    (C7_feature_vector_shape_order [[some (1 : ℝ), some 2], [some 3, some 4]]).2.2 (1, 1) 1 0 h1 h2⟩

/-! ## The `niqe` pipeline -/

/-- Python exception classes raised by the embedded code: the
`AssertionError` of the `ndim` check, the `numpy.AxisError` of
`np.concatenate(…, axis=1)` on 1-D input, and the
`numpy.linalg.LinAlgError` of `np.linalg.pinv` on non-finite input. -/
inductive PyErr
  | assertionError
  | axisError
  | linAlgError
deriving DecidableEq

/-- A numpy array of rank 1, 2 or 3, as callers may pass it to `niqe`;
only the rank and, for rank 2, the rows matter to the embedded code. -/
inductive NpArr
  | d1 (v : List RVal)
  | d2 (m : Mat)
  | d3 (t : List (List (List RVal)))

/-- `ndim` of an input array. -/
def NpArr.ndim : NpArr → ℕ
  | d1 _ => 1
  | d2 _ => 2
  | d3 _ => 3

/-- Python slice `m[r1:r2, c1:c2]` with non-negative bounds. -/
def pySlice2 (m : Mat) (r1 r2 c1 c2 : ℕ) : Mat :=
  ((m.drop r1).take (r2 - r1)).map (fun row => (row.drop c1).take (c2 - c1))

/-- Lines 86–91 of niqe.py: the `assert img.ndim == 2` shape check
followed by the crop to whole blocks, `num_block_h = floor(h/bh)`,
`num_block_w = floor(w/bw)`, `img = img[0:nbh*bh, 0:nbw*bw]`.  There is
no minimum-size check: the block counts may be zero. -/
def niqeCheckCrop (a : NpArr) (bh bw : ℕ) : Except PyErr (Mat × ℕ × ℕ) :=
  match a with
  | .d2 m =>
      let nbh := m.length / bh
      let nbw := ncols m / bw
      .ok (pySlice2 m 0 (nbh * bh) 0 (nbw * bw), nbh, nbw)
  | _ => .error .assertionError

/-- Clamp an index into `[0, n−1]` (edge replication, `mode='nearest'`). -/
def clampIdx (x : ℤ) (n : ℕ) : ℕ := (max 0 (min x ((n : ℤ) - 1))).toNat

/-- `scipy.ndimage.convolve(img, window, mode='nearest')` (line 95):
same-size convolution, kernel centred at `(kh/2, kw/2)`, edge replication:
`out[i][j] = Σ_{a,b} W[a][b] · I[clamp(i + kh/2 − a)][clamp(j + kw/2 − b)]`. -/
def convolveNearest (m w : Mat) : Mat :=
  (List.range m.length).map (fun (i : ℕ) =>
    (List.range (ncols m)).map (fun (j : ℕ) =>
      fsum ((List.range w.length).flatMap (fun (a : ℕ) =>
        (List.range (ncols w)).map (fun (b : ℕ) =>
          fmul (mget w a b)
            (mget m (clampIdx ((i : ℤ) + ((w.length / 2 : ℕ) : ℤ) - (a : ℤ)) m.length)
              (clampIdx ((j : ℤ) + ((ncols w / 2 : ℕ) : ℤ) - (b : ℤ)) (ncols m))))))))

/-- Lines 95–98: local normalization `(img − mu) / (sigma + 1)` with
`mu = convolve(img, window)` and
`sigma = np.sqrt(np.abs(convolve(img², window) − mu²))`. -/
def normalizeImg (m w : Mat) : Mat :=
  (List.range m.length).map (fun (i : ℕ) =>
    (List.range (ncols m)).map (fun (j : ℕ) =>
      fdiv (fsub (mget m i j) (mget (convolveNearest m w) i j))
        (fadd (fsqrt (fabs (fsub (mget (convolveNearest (m.map (List.map fsq)) w) i j)
          (fsq (mget (convolveNearest m w) i j))))) (some 1))))

/-- Lines 104–105: the block slice at a scale.  Python `*` and `//` have
equal precedence and associate left, so the row extent is
`(idx_h*bh)//scale : ((idx_h+1)*bh)//scale`, and likewise for columns. -/
def sliceBlock (m : Mat) (scale bh bw ih iw : ℕ) : Mat :=
  pySlice2 m ((ih * bh) / scale) (((ih + 1) * bh) / scale)
    ((iw * bw) / scale) (((iw + 1) * bw) / scale)

/-- Lines 100–106: one scale of the feature loop — normalize the current
image, then visit blocks column-major (outer loop over the block-column
index `idx_w`, inner loop over the block-row index `idx_h`) collecting
`compute_feature` of every block. -/
def scaleFeatures (img w : Mat) (scale bh bw nbh nbw : ℕ) : List (List RVal) :=
  (List.range nbw).flatMap (fun (iw : ℕ) =>
    (List.range nbh).map (fun (ih : ℕ) =>
      compute_feature (sliceBlock (normalizeImg img w) scale bh bw ih iw)))

/-- Modelled from the spec: `imresize(·, scale=0.5, antialiasing=True)`
from `utils` is code of this repository that is not under `src/`.
Spec §4.3(f) specifies downsampling by factor 0.5 in each dimension with
an anti-aliased resampling filter; we model it as the 2×2 cell average, a
standard anti-aliased half-scale resampler.  No claim settled here
depends on the filter weights, only on the dimension halving. -/
def imresizeHalf (m : Mat) : Mat :=
  (List.range (m.length / 2)).map (fun (i : ℕ) =>
    (List.range (ncols m / 2)).map (fun (j : ℕ) =>
      fdiv (fadd (fadd (mget m (2 * i) (2 * j)) (mget m (2 * i) (2 * j + 1)))
        (fadd (mget m (2 * i + 1) (2 * j)) (mget m (2 * i + 1) (2 * j + 1)))) (some 4)))

/-- Lines 110–112: after scale 1, `img = imresize(img/255., 0.5) * 255.`. -/
def niqeRescale (m : Mat) : Mat :=
  (imresizeHalf (m.map (List.map (fun x => fdiv x (some 255))))).map
    (List.map (fun x => fmul x (some 255)))

/-- `np.concatenate([d1, d2], axis=1)` (line 114).  When a scale produced
no blocks, `np.array([])` is 1-dimensional and numpy raises `AxisError`
for `axis=1`; otherwise rows are concatenated pairwise. -/
def npConcatCols (a b : List (List RVal)) : Except PyErr (List (List RVal)) :=
  if a.isEmpty ∨ b.isEmpty then .error .axisError
  else .ok (List.zipWith (· ++ ·) a b)

/-- Lines 86–114 of `niqe`: shape check, crop, two-scale feature
extraction and column-wise concatenation into the distortion matrix. -/
def niqeDistparam (a : NpArr) (w : Mat) (bh bw : ℕ) : Except PyErr (List (List RVal)) :=
  match niqeCheckCrop a bh bw with
  | .error e => .error e
  | .ok (m, nbh, nbw) =>
      npConcatCols (scaleFeatures m w 1 bh bw nbh nbw)
        (scaleFeatures (niqeRescale m) w 2 bh bw nbh nbw)

/-! ## The quality aggregation -/

/-- Column `j` of a 2-D array. -/
def colAt (m : List (List RVal)) (j : ℕ) : List RVal := m.map (fun r => r.getD j none)

/-- `np.nanmean(distparam, axis=0)` (line 117): for each of the `p`
columns, the mean of the non-NaN entries of that column alone (NaN only
when every entry of the column is NaN); a row containing NaN in another
column still contributes its non-NaN entries. -/
def nanMeanCols (p : ℕ) (m : List (List RVal)) : List RVal :=
  (List.range p).map (fun (j : ℕ) => fmean ((colAt m j).filter (·.isSome)))

/-- Whether a row is NaN-free. -/
def rowNoNaN (r : List RVal) : Bool := !(r.any (·.isNone))

/-- `distparam[~np.isnan(distparam).any(axis=1)]` (line 119): keep only
the rows with no NaN in any column. -/
def dropNaNRows (m : List (List RVal)) : List (List RVal) := m.filter rowNoNaN

/-- `np.cov(x, rowvar=False)` (line 120) for `p` variables: with at most
one remaining row, the normalization factor `n − ddof ≤ 0` and numpy
produces an all-NaN `p×p` matrix (emitting a degrees-of-freedom warning,
not raising); otherwise the sample covariance with denominator `n − 1`. -/
def npCov (p : ℕ) (rows : List (List RVal)) : Mat :=
  if rows.length ≤ 1 then
    (List.range p).map (fun _ => (List.range p).map (fun _ => (none : RVal)))
  else
    (List.range p).map (fun (i : ℕ) =>
      (List.range p).map (fun (j : ℕ) =>
        fdiv (fsum (rows.map (fun r =>
          fmul (fsub (r.getD i none) (fmean (colAt rows i)))
            (fsub (r.getD j none) (fmean (colAt rows j))))))
          (some ((rows.length : ℝ) - 1))))

/-- `(cov_pris_param + cov_distparam) / 2` (line 123), elementwise. -/
def pooledCov (covPris covDist : Mat) : Mat :=
  (List.zipWith (List.zipWith fadd) covPris covDist).map
    (List.map (fun x => fdiv x (some 2)))

/-- Real matrices (for the NaN-free pseudo-inverse model). -/
abbrev RMat := List (List ℝ)

/-- Number of columns of a real matrix. -/
def ncolsR (m : RMat) : ℕ := (m.head?.getD []).length

/-- Dot product of real vectors. -/
def dotR (u v : List ℝ) : ℝ := (List.zipWith (· * ·) u v).sum

/-- Column `j` of a real matrix. -/
def colR (m : RMat) (j : ℕ) : List ℝ := m.map (fun r => r.getD j 0)

/-- Real matrix product. -/
def matMulR (a b : RMat) : RMat :=
  a.map (fun r => (List.range (ncolsR b)).map (fun (j : ℕ) => dotR r (colR b j)))

/-- Real matrix transpose. -/
def transposeR (m : RMat) : RMat :=
  (List.range (ncolsR m)).map (fun (j : ℕ) => colR m j)

/-- Rectangularity (shaped `cols M × rows M`, as numpy's `pinv` returns)
together with the four Moore–Penrose equations. -/
def IsPinv (m n : RMat) : Prop :=
  n.length = ncolsR m ∧ (∀ r ∈ n, r.length = m.length) ∧
  matMulR (matMulR m n) m = m ∧ matMulR (matMulR n m) n = n ∧
  transposeR (matMulR m n) = matMulR m n ∧ transposeR (matMulR n m) = matMulR n m

/-- The Moore–Penrose pseudo-inverse of a real matrix, specified by its
defining equations (chosen when a solution exists, which is the case for
every real matrix). -/
def pinvR (m : RMat) : RMat := if h : ∃ n, IsPinv m n then h.choose else m

/-- Whether any entry of a 2-D array is NaN. -/
def matHasNaN (m : Mat) : Bool := m.any (fun r => r.any (·.isNone))

/-- Strip the (absent) NaNs from a NaN-free array. -/
def toRMat (m : Mat) : RMat := m.map (List.map (fun x => x.getD 0))

/-- Re-wrap a real matrix as float data. -/
def ofRMat (m : RMat) : Mat := m.map (List.map some)

/-- `np.linalg.pinv` (line 123): numpy's SVD raises `LinAlgError` on
non-finite input; on finite input it returns the Moore–Penrose
pseudo-inverse. -/
def npPinv (m : Mat) : Except PyErr Mat :=
  if matHasNaN m then .error .linAlgError else .ok (ofRMat (pinvR (toRMat m)))

/-- Vector–matrix product `np.matmul(v, M)` (line 124). -/
def npVecMat (v : List RVal) (m : Mat) : List RVal :=
  (List.range (ncols m)).map (fun (j : ℕ) => fsum (List.zipWith fmul v (colAt m j)))

/-- Dot product `np.matmul(u, vᵗ)` of two vectors (lines 124–125). -/
def npDot (u v : List RVal) : RVal := fsum (List.zipWith fmul u v)

/-- Line 127: `quality = np.sqrt(quality)` — the square root is applied
directly to the quadratic form, with no clamping of negative values. -/
def niqeScoreOfQuad (q : RVal) : RVal := fsqrt q

/-- Lines 117–129: NaN-aware column means, NaN-row exclusion, sample
covariance, pooled pseudo-inverse and the quadratic form; the score is
`np.sqrt` of the quadratic form (`float(np.squeeze(·))` is the identity
on the scalar). -/
def niqeAggregate (dist : List (List RVal)) (muPris : List RVal) (covPris : Mat) :
    Except PyErr RVal :=
  let p := (dist.head?.getD []).length
  let muDist := nanMeanCols p dist
  let covDist := npCov p (dropNaNRows dist)
  match npPinv (pooledCov covPris covDist) with
  | .error e => .error e
  | .ok pv =>
      let diff := List.zipWith fsub muPris muDist
      .ok (niqeScoreOfQuad (npDot (npVecMat diff pv) diff))

/-- `niqe` (niqe.py lines 61–129). -/
def niqe (a : NpArr) (muPris : List RVal) (covPris : Mat) (w : Mat) (bh bw : ℕ) :
    Except PyErr RVal :=
  match niqeDistparam a w bh bw with
  | .error e => .error e
  | .ok dist => niqeAggregate dist muPris covPris

/-! ## The `calculate_niqe` entry point -/

/-- Keyword arguments accepted by `calculate_niqe` through `**kwargs`,
such as block-size overrides; the body never reads them. -/
structure NiqeKwargs where
  blockSizeH : Option ℕ := none
  blockSizeW : Option ℕ := none
  other : List (String × ℤ) := []

/-- Python `img[c:-c, c:-c]` (niqe.py line 173) on a 2-D array; other
ranks are returned unchanged (the embedded callers only reach the crop
with 2-D data). -/
def cropBorder (a : NpArr) (c : ℕ) : NpArr :=
  match a with
  | .d2 m => .d2 (((m.drop c).take (m.length - 2 * c)).map
      (fun r => (r.drop c).take (r.length - 2 * c)))
  | x => x

/-- `np.round`: round half to even (banker's rounding). -/
def roundHalfEven (x : ℝ) : ℝ :=
  if Int.fract x = 1 / 2 then (if 2 ∣ ⌊x⌋ then (⌊x⌋ : ℝ) else (⌊x⌋ : ℝ) + 1) else round x

/-- Elementwise `img.round()` (line 176). -/
def roundArr (a : NpArr) : NpArr :=
  match a with
  | .d1 v => .d1 (v.map (Option.map roundHalfEven))
  | .d2 m => .d2 (m.map (List.map (Option.map roundHalfEven)))
  | .d3 t => .d3 (t.map (List.map (List.map (Option.map roundHalfEven))))

/-- `calculate_niqe` (niqe.py lines 132–180), parametric in its external
collaborators: `loadParams` models `np.load` of the pristine-model file
(mean vector, covariance, Gaussian window) and `preprocess` models the
`reorder_image` / `to_y_channel` / `cv2.cvtColor` + `np.squeeze` path
taken when `input_order ≠ 'HW'` (all external collaborators per spec
§1/§6).  `kwargs` models the accepted `**kwargs`; the body never reads it
and calls `niqe` with its default 96×96 block size (line 178 passes no
block-size arguments). -/
def calculate_niqe (loadParams : String → List RVal × Mat × Mat)
    (preprocess : NpArr → String → String → NpArr)
    (img : NpArr) (cropB : ℕ) (paramsPath : String)
    (inputOrder : String) (convertTo : String) (kwargs : NiqeKwargs) :
    Except PyErr RVal :=
  let params := loadParams paramsPath
  let img1 := if inputOrder ≠ "HW" then preprocess img inputOrder convertTo else img
  let img2 := if cropB ≠ 0 then cropBorder img1 cropB else img1
  let img3 := roundArr img2
  niqe img3 params.1 params.2.1 params.2.2 96 96

/-- C9: for every image and every pair of extra keyword-argument records
(including `block_size_h` / `block_size_w` overrides), `calculate_niqe`
returns the same score — the kwargs are accepted but never forwarded to
`niqe`, which is always invoked with the default 96×96 block size on the
preprocessed, cropped and rounded image. -/
theorem C9_kwargs_ignored (loadParams : String → List RVal × Mat × Mat)
    (preprocess : NpArr → String → String → NpArr)
    (img : NpArr) (cropB : ℕ) (paramsPath : String)
    (inputOrder : String) (convertTo : String) (k1 k2 : NiqeKwargs) :
    calculate_niqe loadParams preprocess img cropB paramsPath inputOrder convertTo k1 =
      calculate_niqe loadParams preprocess img cropB paramsPath inputOrder convertTo k2 ∧
    calculate_niqe loadParams preprocess img cropB paramsPath inputOrder convertTo k1 =
      niqe (roundArr (if cropB ≠ 0 then
          cropBorder (if inputOrder ≠ "HW" then preprocess img inputOrder convertTo else img) cropB
        else (if inputOrder ≠ "HW" then preprocess img inputOrder convertTo else img)))
        (loadParams paramsPath).1 (loadParams paramsPath).2.1 (loadParams paramsPath).2.2
        96 96 :=
  ⟨rfl, rfl⟩

/-! ## Shape lemmas for the block loop -/

theorem scaleFeatures_length (img w : Mat) (scale bh bw nbh nbw : ℕ) :
    (scaleFeatures img w scale bh bw nbh nbw).length = nbw * nbh := by
  simp [scaleFeatures, List.length_flatMap, Function.comp_def, List.map_const']

theorem scaleFeatures_row_length (img w : Mat) (scale bh bw nbh nbw : ℕ) :
    ∀ r ∈ scaleFeatures img w scale bh bw nbh nbw, r.length = 18 := by
  intro r hr
  rw [scaleFeatures] at hr
  obtain ⟨iw, -, hr⟩ := List.mem_flatMap.mp hr
  obtain ⟨ih, -, rfl⟩ := List.mem_map.mp hr
  exact compute_feature_length _

theorem scaleFeatures_zero_blocks (img w : Mat) (scale bh bw nbw : ℕ) :
    scaleFeatures img w scale bh bw 0 nbw = [] := by
  simp [scaleFeatures]

/-- C2 (amended): only the `ndim == 2` condition is checked before feature
extraction — a non-2-D input raises the assertion error and `niqe` aborts;
but a 2-D image smaller than one block (`num_block_h` or `num_block_w`
zero) passes the check with a zero block count (the crop is empty when the
height is short) and the block loop simply runs zero iterations — no
InvalidShape-style failure is raised at this stage. -/
theorem C2_only_ndim_checked (a : NpArr) (muPris : List RVal) (covPris w : Mat) (bh bw : ℕ) :
    (a.ndim ≠ 2 → niqeCheckCrop a bh bw = .error .assertionError ∧
      niqe a muPris covPris w bh bw = .error .assertionError) ∧
    (∀ m : Mat, a = .d2 m → ∃ mc nbh nbw, niqeCheckCrop a bh bw = .ok (mc, nbh, nbw)) ∧
    (∀ m : Mat, a = .d2 m → m.length < bh →
      niqeCheckCrop a bh bw = .ok ([], 0, ncols m / bw) ∧
      (∀ img scale nbw', scaleFeatures img w scale bh bw 0 nbw' = [])) := by
  refine ⟨?_, ?_, ?_⟩
  · intro hnd
    cases a with
    | d1 v => exact ⟨rfl, rfl⟩
    | d2 m => simp [NpArr.ndim] at hnd
    | d3 t => exact ⟨rfl, rfl⟩
  · rintro m rfl
    exact ⟨_, _, _, rfl⟩
  · rintro m rfl hsmall
    have h0 : m.length / bh = 0 := Nat.div_eq_of_lt hsmall
    constructor
    · simp [niqeCheckCrop, h0, pySlice2]
    · intro img scale nbw'
      exact scaleFeatures_zero_blocks img w scale bh bw nbw'

/-- C2 counterexample: a 1×1 image with the default 96×96 block size is
smaller than one block, yet the shape-check-and-crop stage (lines 86–91,
the only code before feature extraction) succeeds with
`num_block_h = num_block_w = 0` — no InvalidShape-style failure — and the
block loop body runs zero times. -/
theorem C2_counterexample_small_image_accepted :
    niqeCheckCrop (NpArr.d2 [[some (0 : ℝ)]]) 96 96 = .ok ([], 0, 0) ∧
    (∀ img w scale, scaleFeatures img w scale 96 96 0 0 = []) ∧
    NpArr.ndim (NpArr.d2 [[some (0 : ℝ)]]) = 2 := by
  refine ⟨?_, ?_, rfl⟩
  · simp [niqeCheckCrop, ncols, pySlice2]
  · intro img w scale
    exact scaleFeatures_zero_blocks img w scale 96 96 0

/-- Witness for C2: a 1-D input is rejected with the assertion error, and
the 1×1 image passes the crop stage with zero blocks. -/
theorem C2_witness :
    (NpArr.ndim (NpArr.d1 []) ≠ 2 ∧
      niqe (NpArr.d1 []) [] [] [] 96 96 = .error .assertionError) ∧
    (([[some (0 : ℝ)]] : Mat).length < 96 ∧
      niqeCheckCrop (NpArr.d2 [[some (0 : ℝ)]]) 96 96 =
        .ok ([], 0, ncols ([[some (0 : ℝ)]] : Mat) / 96)) := by
  have h1 : NpArr.ndim (NpArr.d1 []) ≠ 2 := by simp [NpArr.ndim]
  have h2 : ([[some (0 : ℝ)]] : Mat).length < 96 := by simp
  exact ⟨⟨h1, ((C2_only_ndim_checked (NpArr.d1 []) [] [] [] 96 96).1 h1).2⟩,
    h2, (((C2_only_ndim_checked (NpArr.d2 [[some (0 : ℝ)]]) [] [] [] 96 96).2.2)
      [[some (0 : ℝ)]] rfl h2).1⟩

/-- The 6×1 matrix used for the C4 counterexample: at scale 2 with an odd
block size 3, Python's left-associated `idx_h * block_size_h // scale`
differs from `idx_h * (block_size_h // scale)` at `idx_h = 3`. -/
def mat6x1 : Mat := [[some 0], [some 1], [some 2], [some 3], [some 4], [some 5]]

/-- C4 (amended): the block fed to the feature extractor is the slice with
row extent `(idx_h·bh)//s : ((idx_h+1)·bh)//s` (Python `*` and `//`
associate to the left, so the boundary is `(idx·bh)//s`, not
`idx·(bh//s)`); the two expressions coincide exactly when `s` divides the
block size — in particular always for the default 96×96 blocks with
`s ∈ {1, 2}` — and iteration is column-major (outer loop over the
block-column index, inner loop over the block-row index). -/
theorem C4_block_slicing_left_assoc (m : Mat) (scale bh bw ih iw : ℕ) (img w : Mat)
    (nbh nbw : ℕ) :
    sliceBlock m scale bh bw ih iw =
      pySlice2 m ((ih * bh) / scale) (((ih + 1) * bh) / scale)
        ((iw * bw) / scale) (((iw + 1) * bw) / scale) ∧
    (scale ∣ bh → (ih * bh) / scale = ih * (bh / scale) ∧
      ((ih + 1) * bh) / scale = (ih + 1) * (bh / scale)) ∧
    (scale ∣ bw → (iw * bw) / scale = iw * (bw / scale) ∧
      ((iw + 1) * bw) / scale = (iw + 1) * (bw / scale)) ∧
    scaleFeatures img w scale bh bw nbh nbw =
      (List.range nbw).flatMap (fun (iw' : ℕ) =>
        (List.range nbh).map (fun (ih' : ℕ) =>
          compute_feature (sliceBlock (normalizeImg img w) scale bh bw ih' iw'))) := by
  refine ⟨rfl, ?_, ?_, rfl⟩
  · intro hd
    exact ⟨Nat.mul_div_assoc ih hd, Nat.mul_div_assoc (ih + 1) hd⟩
  · intro hd
    exact ⟨Nat.mul_div_assoc iw hd, Nat.mul_div_assoc (iw + 1) hd⟩

/-- C4 counterexample: with block size 3 and scale 2, block-row index 3
(valid for a 12-row image, since `12/3 = 4` block rows) selects rows
`[4:6]` of the half-scale image — two rows — whereas the claimed formula
`idx_h·(block_size_h // s) : (idx_h+1)·(block_size_h // s)` selects rows
`[3:4]` — one row.  The slices differ. -/
theorem C4_counterexample_odd_block_size :
    (12 : ℕ) / 3 = 4 ∧
    (3 * 3) / 2 = 4 ∧ 3 * (3 / 2) = 3 ∧
    (sliceBlock mat6x1 2 3 3 3 0).length = 2 ∧
    (pySlice2 mat6x1 (3 * (3 / 2)) ((3 + 1) * (3 / 2)) (0 * (3 / 2)) ((0 + 1) * (3 / 2))).length
      = 1 ∧
    sliceBlock mat6x1 2 3 3 3 0 ≠
      pySlice2 mat6x1 (3 * (3 / 2)) ((3 + 1) * (3 / 2)) (0 * (3 / 2)) ((0 + 1) * (3 / 2)) := by
  have hl1 : (sliceBlock mat6x1 2 3 3 3 0).length = 2 := by
    simp [sliceBlock, pySlice2, mat6x1]
  have hl2 : (pySlice2 mat6x1 (3 * (3 / 2)) ((3 + 1) * (3 / 2)) (0 * (3 / 2))
      ((0 + 1) * (3 / 2))).length = 1 := by
    simp [pySlice2, mat6x1]
  refine ⟨by norm_num, by norm_num, by norm_num, hl1, hl2, ?_⟩
  intro h
  rw [h, hl2] at hl1
  exact absurd hl1 (by norm_num)

/-- Witness for C4: at the default block size 96 and scale 2 the
divisibility hypothesis holds and both boundary formulas agree. -/
theorem C4_witness :
    (2 : ℕ) ∣ 96 ∧ (1 * 96) / 2 = 1 * (96 / 2) ∧ ((1 + 1) * 96) / 2 = (1 + 1) * (96 / 2) := by
  have hd : (2 : ℕ) ∣ 96 := by norm_num
  obtain ⟨ha, hb⟩ := (C4_block_slicing_left_assoc [] 2 96 96 1 1 [] [] 0 0).2.1 hd
  exact ⟨hd, ha, hb⟩

/-- C8: for every image accepted by `niqe` whose block counts are at least
one, each per-scale feature matrix has `num_block_h × num_block_w` rows of
18 columns (the same block count at both scales, since the loop bounds are
computed once from the original cropped image), and the concatenated
distortion matrix has exactly `num_block_h × num_block_w` rows of exactly
36 columns. -/
theorem C8_distortion_matrix_shape (a : NpArr) (w : Mat) (bh bw : ℕ)
    (mc : Mat) (nbh nbw : ℕ)
    (hc : niqeCheckCrop a bh bw = .ok (mc, nbh, nbw))
    (h1 : 1 ≤ nbh) (h2 : 1 ≤ nbw) :
    (scaleFeatures mc w 1 bh bw nbh nbw).length = nbh * nbw ∧
    (∀ r ∈ scaleFeatures mc w 1 bh bw nbh nbw, r.length = 18) ∧
    (scaleFeatures (niqeRescale mc) w 2 bh bw nbh nbw).length = nbh * nbw ∧
    (∀ r ∈ scaleFeatures (niqeRescale mc) w 2 bh bw nbh nbw, r.length = 18) ∧
    ∃ d, niqeDistparam a w bh bw = .ok d ∧ d.length = nbh * nbw ∧
      ∀ r ∈ d, r.length = 36 := by
  have hA : (scaleFeatures mc w 1 bh bw nbh nbw).length = nbh * nbw := by
    rw [scaleFeatures_length, Nat.mul_comm]
  have hB : (scaleFeatures (niqeRescale mc) w 2 bh bw nbh nbw).length = nbh * nbw := by
    rw [scaleFeatures_length, Nat.mul_comm]
  have hpos : 0 < nbh * nbw := Nat.mul_pos h1 h2
  have hApos : (scaleFeatures mc w 1 bh bw nbh nbw).isEmpty = false := by
    rw [Bool.eq_false_iff]
    intro hE
    rw [List.isEmpty_iff_length_eq_zero, hA] at hE
    omega
  have hBpos : (scaleFeatures (niqeRescale mc) w 2 bh bw nbh nbw).isEmpty = false := by
    rw [Bool.eq_false_iff]
    intro hE
    rw [List.isEmpty_iff_length_eq_zero, hB] at hE
    omega
  refine ⟨hA, scaleFeatures_row_length _ _ _ _ _ _ _, hB,
    scaleFeatures_row_length _ _ _ _ _ _ _, ?_⟩
  refine ⟨List.zipWith (· ++ ·) (scaleFeatures mc w 1 bh bw nbh nbw)
    (scaleFeatures (niqeRescale mc) w 2 bh bw nbh nbw), ?_, ?_, ?_⟩
  · rw [niqeDistparam, hc]
    show npConcatCols _ _ = _
    rw [npConcatCols, if_neg (by rw [hApos, hBpos]; simp)]
  · rw [List.length_zipWith, hA, hB, Nat.min_self]
  · intro r hr
    obtain ⟨i, hi, hrr⟩ := List.mem_iff_getElem.mp hr
    rw [List.getElem_zipWith] at hrr
    rw [← hrr, List.length_append]
    have hlA : i < (scaleFeatures mc w 1 bh bw nbh nbw).length := by
      rw [List.length_zipWith] at hi
      omega
    have hlB : i < (scaleFeatures (niqeRescale mc) w 2 bh bw nbh nbw).length := by
      rw [List.length_zipWith] at hi
      omega
    rw [scaleFeatures_row_length mc w 1 bh bw nbh nbw _ (List.getElem_mem hlA),
      scaleFeatures_row_length (niqeRescale mc) w 2 bh bw nbh nbw _ (List.getElem_mem hlB)]

/-- Witness for C8 at a concrete 2×2 image with 1×1 blocks: the crop
stage yields block counts 2×2 and the distortion matrix is 4×36. -/
theorem C8_witness :
    niqeCheckCrop (NpArr.d2 [[some (0 : ℝ), some 0], [some 0, some 0]]) 1 1 =
      .ok ([[some (0 : ℝ), some 0], [some 0, some 0]], 2, 2) ∧
    (1 : ℕ) ≤ 2 ∧
    ∃ d, niqeDistparam (NpArr.d2 [[some (0 : ℝ), some 0], [some 0, some 0]]) [] 1 1 = .ok d ∧
      d.length = 2 * 2 ∧ ∀ r ∈ d, r.length = 36 := by
  have hc : niqeCheckCrop (NpArr.d2 [[some (0 : ℝ), some 0], [some 0, some 0]]) 1 1 =
      .ok ([[some (0 : ℝ), some 0], [some 0, some 0]], 2, 2) := by
    simp [niqeCheckCrop, ncols, pySlice2]
  exact ⟨hc, by norm_num,
    (C8_distortion_matrix_shape (NpArr.d2 [[some (0 : ℝ), some 0], [some 0, some 0]]) [] 1 1
      [[some (0 : ℝ), some 0], [some 0, some 0]] 2 2 hc (by norm_num) (by norm_num)).2.2.2.2⟩

/-- C5: in the quality aggregation, the mean vector is the column-wise
NaN-ignoring mean of the full distortion matrix (each column filtered
independently, so a row with a NaN elsewhere still contributes its non-NaN
entries), while the covariance is computed over only the rows with no NaN
in any column; the aggregation applies these two different NaN policies to
the same matrix — and they genuinely differ (last conjunct). -/
theorem C5_nan_policy_asymmetry (dist : List (List RVal)) (j : ℕ)
    (hj : j < (dist.head?.getD []).length) :
    (nanMeanCols (dist.head?.getD []).length dist).getD j none =
      fmean ((dist.map (fun r => r.getD j none)).filter (·.isSome)) ∧
    dropNaNRows dist = dist.filter (fun r => !(r.any (·.isNone))) ∧
    (∀ muPris covPris,
      niqeAggregate dist muPris covPris =
        match npPinv (pooledCov covPris
            (npCov (dist.head?.getD []).length (dropNaNRows dist))) with
        | .error e => .error e
        | .ok pv =>
            .ok (niqeScoreOfQuad (npDot (npVecMat
              (List.zipWith fsub muPris
                (nanMeanCols (dist.head?.getD []).length dist)) pv)
              (List.zipWith fsub muPris
                (nanMeanCols (dist.head?.getD []).length dist))))) ∧
    (∃ m : List (List RVal),
      nanMeanCols (m.head?.getD []).length m ≠
        nanMeanCols (m.head?.getD []).length (dropNaNRows m)) := by
  refine ⟨?_, rfl, fun muPris covPris => rfl, ?_⟩
  · rw [nanMeanCols, List.getD_eq_getElem?_getD, List.getElem?_map, List.getElem?_range hj]
    rfl
  · refine ⟨[[some 0, none], [some 2, some 0]], ?_⟩
    have e1 : nanMeanCols (([[some (0 : ℝ), none], [some 2, some 0]] :
        List (List RVal)).head?.getD []).length [[some 0, none], [some 2, some 0]] =
        [some 1, some 0] := by
      simp [nanMeanCols, colAt, fmean, fsum, List.range_succ]
      norm_num [fadd, fdiv]
    have e2 : nanMeanCols (([[some (0 : ℝ), none], [some 2, some 0]] :
        List (List RVal)).head?.getD []).length
        (dropNaNRows [[some 0, none], [some 2, some 0]]) = [some 2, some 0] := by
      simp [dropNaNRows, rowNoNaN, nanMeanCols, colAt, fmean, fsum, List.range_succ]
      norm_num [fadd, fdiv]
    rw [e1, e2]
    simp

/-- Witness for C5 at a concrete 1×1 matrix and column 0. -/
theorem C5_witness :
    0 < (([[some (0 : ℝ)]] : List (List RVal)).head?.getD []).length ∧
    (nanMeanCols (([[some (0 : ℝ)]] : List (List RVal)).head?.getD []).length
        [[some (0 : ℝ)]]).getD 0 none =
      fmean ((([[some (0 : ℝ)]] : List (List RVal)).map
        (fun r => r.getD 0 none)).filter (·.isSome)) := by
  have h0 : 0 < (([[some (0 : ℝ)]] : List (List RVal)).head?.getD []).length := by simp
  exact ⟨h0, (C5_nan_policy_asymmetry [[some (0 : ℝ)]] 0 h0).1⟩

/-! ## Generic lemmas for all-real (NaN-free) data -/

theorem fsum_aux_map_some (u : List ℝ) :
    ∀ a : ℝ, List.foldl fadd (some a) (u.map some) = some (a + u.sum) := by
  induction u with
  | nil => intro a; simp [List.foldl]
  | cons x xs ih =>
      intro a
      simp only [List.map_cons, List.foldl_cons, fadd_some]
      rw [ih (a + x), List.sum_cons]
      ring_nf

theorem fsum_map_some (u : List ℝ) : fsum (u.map some) = some u.sum := by
  rw [fsum, fsum_aux_map_some u 0, zero_add]

theorem fmean_map_some (u : List ℝ) (hu : u ≠ []) :
    fmean (u.map some) = some (u.sum / u.length) := by
  have hn : (u.length : ℝ) ≠ 0 := by
    have hp : 0 < u.length := List.length_pos.mpr hu
    have : (0 : ℝ) < (u.length : ℝ) := by exact_mod_cast hp
    exact ne_of_gt this
  have hl : (((u.map some).length : ℕ) : ℝ) = (u.length : ℝ) := by simp
  rw [fmean, fsum_map_some, hl, fdiv_some_of_ne _ hn]

theorem fmean_replicate_some (n : ℕ) (hn : n ≠ 0) (v : ℝ) :
    fmean (List.replicate n (some v)) = some v := by
  have h1 : List.replicate n (some v) = (List.replicate n v).map some := by
    rw [List.map_replicate]
  have h2 : (List.replicate n v) ≠ [] := by
    simp [hn]
  rw [h1, fmean_map_some _ h2, List.sum_replicate, List.length_replicate]
  congr 1
  rw [nsmul_eq_mul]
  field_simp

/-- Boolean check that every entry of a 2-D array is a real (not NaN). -/
def allSomeB (m : Mat) : Bool := m.all (fun r => r.all (·.isSome))

/-- Boolean check that every row has the length of the first row. -/
def rectB (m : Mat) : Bool := m.all (fun r => r.length == ncols m)

theorem allSomeB_mem {m : Mat} (h : allSomeB m = true) {r : List RVal} (hr : r ∈ m)
    {x : RVal} (hx : x ∈ r) : ∃ v : ℝ, x = some v := by
  rw [allSomeB, List.all_eq_true] at h
  have := List.all_eq_true.mp (h r hr) x hx
  cases x with
  | none => simp at this
  | some v => exact ⟨v, rfl⟩

theorem rectB_mem {m : Mat} (h : rectB m = true) {r : List RVal} (hr : r ∈ m) :
    r.length = ncols m := by
  rw [rectB, List.all_eq_true] at h
  simpa using h r hr

theorem mget_eq_getElem {m : Mat} {i j : ℕ} (hi : i < m.length)
    (hj : j < m[i].length) : mget m i j = m[i][j] := by
  rw [mget, List.getD_eq_getElem m [] hi, List.getD_eq_getElem _ none hj]

/-- In-range entries of an all-real rectangular array are `some`. -/
theorem mget_some {m : Mat} (hs : allSomeB m = true) (hrect : rectB m = true)
    {i j : ℕ} (hi : i < m.length) (hj : j < ncols m) : ∃ v : ℝ, mget m i j = some v := by
  have hrow : m[i].length = ncols m := rectB_mem hrect (List.getElem_mem hi)
  have hj' : j < m[i].length := by omega
  rw [mget_eq_getElem hi hj']
  exact allSomeB_mem hs (List.getElem_mem hi) (List.getElem_mem hj')

/-- Two-level extensionality: a nested-range-built matrix equals `B` when
the shapes agree and the generator matches `B` pointwise. -/
theorem rangeMat_eq (h w : ℕ) (f : ℕ → ℕ → RVal) (B : Mat)
    (hl : B.length = h)
    (hrow : ∀ (i : ℕ) (hi : i < B.length), B[i].length = w)
    (he : ∀ (i j : ℕ) (hi : i < B.length) (hj : j < B[i].length),
      f i j = B[i][j]) :
    (List.range h).map (fun (i : ℕ) => (List.range w).map (fun (j : ℕ) => f i j)) = B := by
  apply List.ext_getElem
  · simp [hl]
  · intro i h1 h2
    simp only [List.getElem_map, List.getElem_range]
    apply List.ext_getElem
    · simp [hrow i h2]
    · intro j hj1 hj2
      simp only [List.getElem_map, List.getElem_range]
      exact he i j h2 hj2

theorem clampIdx_of_lt {i n : ℕ} (h : i < n) : clampIdx (i : ℤ) n = i := by
  rw [clampIdx]
  omega

/-- The 1×1 zero window used by the concrete runs (any window is accepted
by `niqe`; with this one the normalization stage is the identity). -/
def win0 : Mat := [[some (0 : ℝ)]]

theorem ncols_map_map (f : RVal → RVal) (m : Mat) :
    ncols (m.map (List.map f)) = ncols m := by
  cases m with
  | nil => rfl
  | cons r t => simp [ncols]

theorem allSomeB_map_fsq {m : Mat} (hs : allSomeB m = true) :
    allSomeB (m.map (List.map fsq)) = true := by
  rw [allSomeB, List.all_eq_true]
  intro r' hr'
  obtain ⟨r, hr, rfl⟩ := List.mem_map.mp hr'
  rw [List.all_eq_true]
  intro x hx
  obtain ⟨y, hy, rfl⟩ := List.mem_map.mp hx
  obtain ⟨v, rfl⟩ := allSomeB_mem hs hr hy
  rfl

theorem rectB_map_fsq {m : Mat} (hrect : rectB m = true) :
    rectB (m.map (List.map fsq)) = true := by
  rw [rectB, List.all_eq_true]
  intro r' hr'
  obtain ⟨r, hr, rfl⟩ := List.mem_map.mp hr'
  simp [ncols_map_map, rectB_mem hrect hr]

/-- Convolution with the 1×1 zero window gives zero at every in-range
entry of an all-real rectangular image. -/
theorem convolve_win0 {m : Mat} (hs : allSomeB m = true) (hrect : rectB m = true)
    {i j : ℕ} (hi : i < m.length) (hj : j < ncols m) :
    mget (convolveNearest m win0) i j = some 0 := by
  obtain ⟨v, hv⟩ := mget_some hs hrect hi hj
  rw [convolveNearest, mget_of_ranges _ _ _ i j hi hj]
  have hw1 : win0.length = 1 := rfl
  have hw2 : ncols win0 = 1 := rfl
  rw [hw1, hw2]
  have hr1 : List.range 1 = [0] := rfl
  rw [hr1]
  simp only [List.flatMap_cons, List.flatMap_nil, List.map_cons, List.map_nil, List.append_nil]
  have ha1 : ((i : ℤ) + ((1 / 2 : ℕ) : ℤ) - ((0 : ℕ) : ℤ)) = (i : ℤ) := by norm_num
  have ha2 : ((j : ℤ) + ((1 / 2 : ℕ) : ℤ) - ((0 : ℕ) : ℤ)) = (j : ℤ) := by norm_num
  rw [ha1, ha2, clampIdx_of_lt hi, clampIdx_of_lt hj, hv]
  have hw00 : mget win0 0 0 = some 0 := rfl
  rw [hw00, fmul_some]
  rw [fsum]
  simp only [List.foldl_cons, List.foldl_nil, fadd_some]
  congr 1
  ring

/-- With the 1×1 zero window, `mu = 0` and `sigma = 0`, so the local
normalization `(img − mu)/(sigma + 1)` is the identity on every all-real
rectangular image. -/
theorem normalizeImg_win0 {m : Mat} (hs : allSomeB m = true) (hrect : rectB m = true) :
    normalizeImg m win0 = m := by
  rw [normalizeImg]
  apply rangeMat_eq
  · rfl
  · intro i hi
    exact rectB_mem hrect (List.getElem_mem hi)
  · intro i j hi hj
    have hj' : j < ncols m := by
      have := rectB_mem hrect (List.getElem_mem hi)
      omega
    obtain ⟨v, hv⟩ := mget_some hs hrect hi hj'
    have hc1 := convolve_win0 hs hrect hi hj'
    have hsq := allSomeB_map_fsq hs
    have hsqr := rectB_map_fsq hrect
    have hi2 : i < (m.map (List.map fsq)).length := by simpa using hi
    have hj2 : j < ncols (m.map (List.map fsq)) := by
      rw [ncols_map_map]; exact hj'
    have hc2 := convolve_win0 hsq hsqr hi2 hj2
    rw [hc1, hc2, hv]
    have e1 : fsq (some (0 : ℝ)) = some 0 := by
      rw [fsq, fmul_some]; norm_num
    have e2 : fsub (some (0 : ℝ)) (some 0) = some 0 := by
      rw [fsub_some]; norm_num
    have e3 : fabs (some (0 : ℝ)) = some 0 := by simp [fabs]
    have e4 : fsqrt (some (0 : ℝ)) = some 0 := by
      rw [fsqrt_some_of_nonneg le_rfl, Real.sqrt_zero]
    have e5 : fadd (some (0 : ℝ)) (some 1) = some 1 := by
      rw [fadd_some]; norm_num
    have e6 : fsub (some v) (some 0) = some v := by
      rw [fsub_some]; norm_num
    have e7 : fdiv (some v) (some 1) = some v := by
      rw [fdiv_some_of_ne _ one_ne_zero]; norm_num
    rw [e1, e2, e3, e4, e5, e6, e7]
    rw [mget_eq_getElem hi hj] at hv
    exact hv.symm

theorem mget_replicate {n m a b : ℕ} (c : RVal) (ha : a < n) (hb : b < m) :
    mget (List.replicate n (List.replicate m c)) a b = c := by
  have h1 : (List.replicate n (List.replicate m c)).getD a [] = List.replicate m c := by
    rw [List.getD_eq_getElem _ _ (by simpa using ha), List.getElem_replicate]
  have h2 : (List.replicate m c).getD b none = c := by
    rw [List.getD_eq_getElem _ _ (by simpa using hb), List.getElem_replicate]
  rw [mget, h1, h2]

theorem ncols_replicate {n m : ℕ} (c : RVal) (hn : 0 < n) :
    ncols (List.replicate n (List.replicate m c)) = m := by
  cases n with
  | zero => omega
  | succ k => simp [List.replicate_succ, ncols]

/-- The 2×2-average model of `imresize` on a constant image. -/
theorem imresizeHalf_const (n m : ℕ) (c : ℝ) (hn : 0 < n) :
    imresizeHalf (List.replicate n (List.replicate m (some c))) =
    List.replicate (n / 2) (List.replicate (m / 2) (some ((c + c + (c + c)) / 4))) := by
  rw [imresizeHalf]
  have h1 : (List.replicate n (List.replicate m (some c)) : Mat).length = n := by simp
  rw [h1, ncols_replicate _ hn]
  apply rangeMat_eq
  · simp
  · intro i hi
    simp
  · intro i j hi hj
    have hi4 : i < n / 2 := by simpa using hi
    have hj4 : j < m / 2 := by
      have := @List.getElem_replicate _
        (List.replicate (m / 2) (some ((c + c + (c + c)) / 4))) (n / 2) _ hi
      rw [this] at hj
      simpa using hj
    have b1 : 2 * i < n := by omega
    have b2 : 2 * i + 1 < n := by omega
    have b3 : 2 * j < m := by omega
    have b4 : 2 * j + 1 < m := by omega
    rw [mget_replicate _ b1 b3, mget_replicate _ b1 b4, mget_replicate _ b2 b3,
      mget_replicate _ b2 b4, fadd_some, fadd_some,
      fdiv_some_of_ne _ (by norm_num : (4 : ℝ) ≠ 0)]
    simp

/-! ## The all-zero 8×8 run (every feature row contains NaN) -/

/-- An 8×8 all-zero image. -/
def img8z : Mat := List.replicate 8 (List.replicate 8 (some (0 : ℝ)))

/-- A 4×4 all-zero block (scale 1). -/
def zb4 : Mat := List.replicate 4 (List.replicate 4 (some (0 : ℝ)))

/-- A 2×2 all-zero block (scale 2). -/
def zb2 : Mat := List.replicate 2 (List.replicate 2 (some (0 : ℝ)))

theorem pySlice2_replicate (n m r1 r2 c1 c2 : ℕ) (c : RVal) :
    pySlice2 (List.replicate n (List.replicate m c)) r1 r2 c1 c2 =
    List.replicate (min (r2 - r1) (n - r1)) (List.replicate (min (c2 - c1) (m - c1)) c) := by
  simp [pySlice2, List.drop_replicate, List.take_replicate, List.map_replicate,
    Nat.min_comm]

theorem niqeRescale_img8z : niqeRescale img8z = zb4 := by
  rw [niqeRescale, img8z, List.map_replicate, List.map_replicate,
    fdiv_some_of_ne _ (by norm_num : (255 : ℝ) ≠ 0)]
  rw [imresizeHalf_const 8 8 _ (by norm_num)]
  rw [List.map_replicate, List.map_replicate, fmul_some]
  rw [zb4]
  norm_num

theorem img8z_allSome : allSomeB img8z = true := by rfl

theorem img8z_rect : rectB img8z = true := by rfl

theorem zb4_allSome : allSomeB zb4 = true := by rfl

theorem zb4_rect : rectB zb4 = true := by rfl

theorem niqeCheckCrop_img8z : niqeCheckCrop (NpArr.d2 img8z) 4 4 = .ok (img8z, 2, 2) := by
  rw [niqeCheckCrop]
  have h1 : (img8z.length : ℕ) / 4 = 2 := by rw [img8z]; simp
  have h2 : ncols img8z / 4 = 2 := by
    rw [img8z, ncols_replicate _ (by norm_num)]
  rw [img8z] at h1 h2 ⊢
  simp only [h1, h2]
  rw [pySlice2_replicate]
  norm_num

theorem sliceBlock_img8z (ih iw : ℕ) (hih : ih < 2) (hiw : iw < 2) :
    sliceBlock img8z 1 4 4 ih iw = zb4 := by
  rw [sliceBlock, img8z, pySlice2_replicate, zb4]
  interval_cases ih <;> interval_cases iw <;> norm_num

theorem sliceBlock_zb4 (ih iw : ℕ) (hih : ih < 2) (hiw : iw < 2) :
    sliceBlock zb4 2 4 4 ih iw = zb2 := by
  rw [sliceBlock, zb4, pySlice2_replicate, zb2]
  interval_cases ih <;> interval_cases iw <;> norm_num

theorem scaleFeatures_img8z :
    scaleFeatures img8z win0 1 4 4 2 2 = List.replicate 4 (compute_feature zb4) := by
  rw [scaleFeatures, normalizeImg_win0 img8z_allSome img8z_rect]
  have hr2 : List.range 2 = [0, 1] := rfl
  rw [hr2]
  simp only [List.flatMap_cons, List.flatMap_nil, List.map_cons, List.map_nil, List.append_nil]
  rw [sliceBlock_img8z 0 0 (by norm_num) (by norm_num),
    sliceBlock_img8z 1 0 (by norm_num) (by norm_num),
    sliceBlock_img8z 0 1 (by norm_num) (by norm_num),
    sliceBlock_img8z 1 1 (by norm_num) (by norm_num)]
  rfl

theorem scaleFeatures_zb4 :
    scaleFeatures zb4 win0 2 4 4 2 2 = List.replicate 4 (compute_feature zb2) := by
  rw [scaleFeatures, normalizeImg_win0 zb4_allSome zb4_rect]
  have hr2 : List.range 2 = [0, 1] := rfl
  rw [hr2]
  simp only [List.flatMap_cons, List.flatMap_nil, List.map_cons, List.map_nil, List.append_nil]
  rw [sliceBlock_zb4 0 0 (by norm_num) (by norm_num),
    sliceBlock_zb4 1 0 (by norm_num) (by norm_num),
    sliceBlock_zb4 0 1 (by norm_num) (by norm_num),
    sliceBlock_zb4 1 1 (by norm_num) (by norm_num)]
  rfl

/-- The distortion matrix of the all-zero run: four identical rows, each
the 36 features of the all-zero blocks. -/
theorem niqeDistparam_img8z :
    niqeDistparam (NpArr.d2 img8z) win0 4 4 =
      .ok (List.replicate 4 (compute_feature zb4 ++ compute_feature zb2)) := by
  rw [niqeDistparam, niqeCheckCrop_img8z]
  show npConcatCols (scaleFeatures img8z win0 1 4 4 2 2)
    (scaleFeatures (niqeRescale img8z) win0 2 4 4 2 2) = _
  rw [scaleFeatures_img8z, niqeRescale_img8z, scaleFeatures_zb4]
  rw [npConcatCols]
  rw [if_neg (by simp)]
  rfl

/-- A block with no strictly-negative sample yields a feature vector
containing NaN (its `(β_l + β_r)/2` entry). -/
theorem compute_feature_has_nan {m : Mat} (h : (npFlatten m).filter isNegV = []) :
    (compute_feature m).any (·.isNone) = true := by
  have hbl := (aggd_no_negative h).2
  apply List.any_eq_true.2
  refine ⟨fdiv (fadd (estimate_aggd_param (npFlatten m)).2.1
    (estimate_aggd_param (npFlatten m)).2.2) (some 2), ?_, ?_⟩
  · rw [compute_feature]
    simp
  · rw [hbl, fadd_none_left, fdiv_none_left]
    rfl

theorem filter_isNegV_zb4 : (npFlatten zb4).filter isNegV = [] := by
  have h : npFlatten zb4 = List.replicate 16 (some (0 : ℝ)) := rfl
  rw [h, List.filter_replicate]
  simp [isNegV]

theorem filter_isNegV_zb2 : (npFlatten zb2).filter isNegV = [] := by
  have h : npFlatten zb2 = List.replicate 4 (some (0 : ℝ)) := rfl
  rw [h, List.filter_replicate]
  simp [isNegV]

/-- Structural inversion: a successful `niqeDistparam` yields rows of
exactly 36 features. -/
theorem niqeDistparam_rows36 {a : NpArr} {w : Mat} {bh bw : ℕ}
    {dist : List (List RVal)} (hd : niqeDistparam a w bh bw = .ok dist) :
    ∀ r ∈ dist, r.length = 36 := by
  rw [niqeDistparam] at hd
  cases hc : niqeCheckCrop a bh bw with
  | error e =>
      rw [hc] at hd
      exact absurd hd (by simp)
  | ok t =>
      obtain ⟨mc, nbh, nbw⟩ := t
      rw [hc] at hd
      have hd' : npConcatCols (scaleFeatures mc w 1 bh bw nbh nbw)
          (scaleFeatures (niqeRescale mc) w 2 bh bw nbh nbw) = .ok dist := hd
      rw [npConcatCols] at hd'
      by_cases hE : (scaleFeatures mc w 1 bh bw nbh nbw).isEmpty = true ∨
          (scaleFeatures (niqeRescale mc) w 2 bh bw nbh nbw).isEmpty = true
      · rw [if_pos hE] at hd'
        exact absurd hd' (by simp)
      · rw [if_neg hE] at hd'
        have hdist : dist = List.zipWith (· ++ ·) (scaleFeatures mc w 1 bh bw nbh nbw)
            (scaleFeatures (niqeRescale mc) w 2 bh bw nbh nbw) := by
          injection hd' with h
          exact h.symm
        subst hdist
        intro r hr
        obtain ⟨i, hi, hrr⟩ := List.mem_iff_getElem.mp hr
        rw [List.getElem_zipWith] at hrr
        have hlA : i < (scaleFeatures mc w 1 bh bw nbh nbw).length := by
          rw [List.length_zipWith] at hi
          omega
        have hlB : i < (scaleFeatures (niqeRescale mc) w 2 bh bw nbh nbw).length := by
          rw [List.length_zipWith] at hi
          omega
        rw [← hrr, List.length_append,
          scaleFeatures_row_length mc w 1 bh bw nbh nbw _ (List.getElem_mem hlA),
          scaleFeatures_row_length (niqeRescale mc) w 2 bh bw nbh nbw _ (List.getElem_mem hlB)]

theorem getD_zipWith_fadd (u v : List RVal) (j : ℕ) :
    (List.zipWith fadd u v).getD j none = fadd (u.getD j none) (v.getD j none) := by
  induction u generalizing v j with
  | nil =>
      cases v <;> cases j <;> simp [fadd]
  | cons x xs ih =>
      cases v with
      | nil =>
          cases j <;> simp [List.getD, fadd_none_right]
      | cons y ys =>
          cases j with
          | zero => simp [List.getD_cons_zero]
          | succ k => simpa [List.getD_cons_succ] using ih ys k

theorem mget_nil (i j : ℕ) : mget [] i j = none := by
  simp [mget, List.getD]

theorem mget_zipWith_fadd (A B : Mat) (i j : ℕ) :
    mget (List.zipWith (List.zipWith fadd) A B) i j = fadd (mget A i j) (mget B i j) := by
  induction A generalizing B i with
  | nil =>
      cases B <;> simp [mget, List.getD, fadd]
  | cons r t ih =>
      cases B with
      | nil =>
          rw [List.zipWith_nil_right, mget_nil, fadd_none_right]
      | cons s u =>
          cases i with
          | zero =>
              simp only [List.zipWith_cons_cons, mget, List.getD_cons_zero]
              exact getD_zipWith_fadd r s j
          | succ k =>
              simp only [List.zipWith_cons_cons, mget, List.getD_cons_succ]
              exact ih u k

theorem mget_map_g {g : RVal → RVal} (hg : g none = none) (M : Mat) (i j : ℕ) :
    mget (M.map (List.map g)) i j = g (mget M i j) := by
  rw [mget, mget]
  have h1 : (M.map (List.map g)).getD i [] = List.map g (M.getD i []) := by
    have h := @List.getD_map _ _ M [] i (List.map g)
    simpa using h
  rw [h1]
  have h2 := @List.getD_map _ _ (M.getD i []) (none : RVal) j g
  rw [hg] at h2
  exact h2

theorem mget_pooledCov (A B : Mat) (i j : ℕ) :
    mget (pooledCov A B) i j = fdiv (fadd (mget A i j) (mget B i j)) (some 2) := by
  rw [pooledCov, mget_map_g rfl, mget_zipWith_fadd]

theorem matHasNaN_of_mget_none {M : Mat} {i j : ℕ} (h : mget M i j = none)
    (hi : i < M.length) (hj : j < (M.getD i []).length) : matHasNaN M = true := by
  apply List.any_eq_true.2
  refine ⟨M.getD i [], ?_, ?_⟩
  · rw [List.getD_eq_getElem _ _ hi]
    exact List.getElem_mem hi
  · apply List.any_eq_true.2
    refine ⟨(M.getD i []).getD j none, ?_, ?_⟩
    · rw [List.getD_eq_getElem _ _ hj]
      exact List.getElem_mem hj
    · rw [← mget, h]
      rfl

/-- When every row of the distortion matrix contains a NaN, the NaN-row
filter leaves nothing, `np.cov` of the empty sample is the all-NaN 36×36
matrix, the pooled matrix is non-finite, and `np.linalg.pinv` raises the
generic `LinAlgError` — there is no distinct empty-sample condition. -/
theorem niqe_all_nan_rows_error (a : NpArr) (muPris : List RVal) (covPris w : Mat)
    (bh bw : ℕ) (dist : List (List RVal))
    (hd : niqeDistparam a w bh bw = .ok dist)
    (hne : dist ≠ [])
    (hnan : ∀ r ∈ dist, r.any (·.isNone) = true)
    (hcpl : covPris.length = 36)
    (hcpr : ∀ r ∈ covPris, r.length = 36) :
    niqe a muPris covPris w bh bw = .error .linAlgError := by
  rw [niqe, hd]
  show niqeAggregate dist muPris covPris = _
  rw [niqeAggregate]
  have hkept : dropNaNRows dist = [] := by
    rw [dropNaNRows, List.filter_eq_nil_iff]
    intro r hr
    rw [rowNoNaN, hnan r hr]
    simp
  have hp : (dist.head?.getD []).length = 36 := by
    obtain ⟨r, t, rfl⟩ := List.exists_cons_of_ne_nil hne
    exact niqeDistparam_rows36 hd r (List.mem_cons_self r t)
  rw [hkept, hp]
  have hcov : npCov 36 [] = (List.range 36).map
      (fun _ => (List.range 36).map (fun _ => (none : RVal))) := by
    rw [npCov, if_pos (by simp)]
  rw [hcov]
  have hBnone : mget ((List.range 36).map
      (fun _ => (List.range 36).map (fun _ => (none : RVal)))) 0 0 = none := by
    have h := mget_of_ranges 36 36 (fun _ _ => (none : RVal)) 0 0
      (by norm_num) (by norm_num)
    exact h
  have hval : mget (pooledCov covPris ((List.range 36).map
      (fun _ => (List.range 36).map (fun _ => (none : RVal))))) 0 0 = none := by
    rw [mget_pooledCov, hBnone, fadd_none_right, fdiv_none_left]
  have hMlen : (pooledCov covPris ((List.range 36).map
      (fun _ => (List.range 36).map (fun _ => (none : RVal))))).length = 36 := by
    rw [pooledCov, List.length_map, List.length_zipWith, hcpl]
    simp
  have hrowlen : ((pooledCov covPris ((List.range 36).map
      (fun _ => (List.range 36).map (fun _ => (none : RVal))))).getD 0 []).length = 36 := by
    have h0 : 0 < covPris.length := by rw [hcpl]; norm_num
    rw [pooledCov]
    have h1 : ((List.zipWith (List.zipWith fadd) covPris ((List.range 36).map
        (fun _ => (List.range 36).map (fun _ => (none : RVal))))).map
        (List.map (fun x => fdiv x (some 2)))).getD 0 [] =
        List.map (fun x => fdiv x (some 2))
          ((List.zipWith (List.zipWith fadd) covPris ((List.range 36).map
            (fun _ => (List.range 36).map (fun _ => (none : RVal))))).getD 0 []) := by
      have h := @List.getD_map _ _ (List.zipWith (List.zipWith fadd) covPris
        ((List.range 36).map (fun _ => (List.range 36).map (fun _ => (none : RVal)))))
        [] 0 (List.map (fun x => fdiv x (some 2)))
      simpa using h
    rw [h1, List.length_map]
    have hz : 0 < (List.zipWith (List.zipWith fadd) covPris ((List.range 36).map
        (fun _ => (List.range 36).map (fun _ => (none : RVal))))).length := by
      rw [List.length_zipWith, hcpl]
      simp
    rw [List.getD_eq_getElem _ _ hz, List.getElem_zipWith, List.length_zipWith]
    have hc0 : covPris[0].length = 36 := hcpr _ (List.getElem_mem h0)
    have hlr0 : 0 < ((List.range 36).map (fun _ => (List.range 36).map
        (fun _ => (none : RVal)))).length := by simp
    have hr0 : ((((List.range 36).map (fun _ => (List.range 36).map
        (fun _ => (none : RVal))))[0]).length) = 36 := by
      simp only [List.getElem_map, List.getElem_range]
      simp
    rw [hc0, hr0]
    simp
  have hnan00 : matHasNaN (pooledCov covPris ((List.range 36).map
      (fun _ => (List.range 36).map (fun _ => (none : RVal))))) = true :=
    matHasNaN_of_mget_none hval (by rw [hMlen]; norm_num) (by rw [hrowlen]; norm_num)
  rw [npPinv, if_pos hnan00]

/-- The all-zero pristine covariance used in the concrete runs. -/
def zeros3636 : Mat := List.replicate 36 (List.replicate 36 (some (0 : ℝ)))

theorem distRows_img8z_nan :
    ∀ r ∈ List.replicate 4 (compute_feature zb4 ++ compute_feature zb2),
      r.any (·.isNone) = true := by
  intro r hr
  rw [List.eq_of_mem_replicate hr, List.any_append,
    compute_feature_has_nan filter_isNegV_zb4]
  rfl

/-- The all-zero run ends in the generic `LinAlgError` from `pinv`. -/
theorem niqe_img8z_linalg :
    niqe (NpArr.d2 img8z) (List.replicate 36 (some 0)) zeros3636 win0 4 4 =
      .error .linAlgError := by
  apply niqe_all_nan_rows_error _ _ _ _ _ _ (List.replicate 4
    (compute_feature zb4 ++ compute_feature zb2))
  · exact niqeDistparam_img8z
  · simp
  · exact distRows_img8z_nan
  · simp [zeros3636]
  · intro r hr
    rw [List.eq_of_mem_replicate hr]
    simp

/-- C3 (amended): for every run of `niqe` in which every row of the
distortion matrix contains at least one NaN, the NaN-row filter leaves no
rows, `np.cov` silently produces an all-NaN 36×36 matrix, and the run
fails only when `np.linalg.pinv` rejects the non-finite pooled matrix with
the generic `LinAlgError` — no score is returned, but there is no distinct
EmptySampleCovariance condition (the same exception arises from any
non-finite `pinv` input, e.g. NaN in the caller's pristine covariance). -/
theorem C3_all_nan_rows_generic_linalg_error (a : NpArr) (muPris : List RVal)
    (covPris w : Mat) (bh bw : ℕ) (dist : List (List RVal))
    (hd : niqeDistparam a w bh bw = .ok dist) (hne : dist ≠ [])
    (hnan : ∀ r ∈ dist, r.any (·.isNone) = true)
    (hcpl : covPris.length = 36) (hcpr : ∀ r ∈ covPris, r.length = 36) :
    niqe a muPris covPris w bh bw = .error .linAlgError :=
  niqe_all_nan_rows_error a muPris covPris w bh bw dist hd hne hnan hcpl hcpr

/-- Witness for C3 at the all-zero 8×8 image with 4×4 blocks. -/
theorem C3_witness :
    niqeDistparam (NpArr.d2 img8z) win0 4 4 =
      .ok (List.replicate 4 (compute_feature zb4 ++ compute_feature zb2)) ∧
    List.replicate 4 (compute_feature zb4 ++ compute_feature zb2) ≠ [] ∧
    niqe (NpArr.d2 img8z) (List.replicate 36 (some 0)) zeros3636 win0 4 4 =
      .error .linAlgError := by
  refine ⟨niqeDistparam_img8z, by simp, ?_⟩
  apply C3_all_nan_rows_generic_linalg_error _ _ _ _ _ _ (List.replicate 4
    (compute_feature zb4 ++ compute_feature zb2))
  · exact niqeDistparam_img8z
  · simp
  · exact distRows_img8z_nan
  · simp [zeros3636]
  · intro r hr
    rw [List.eq_of_mem_replicate hr]
    simp

/-! ## The 8×8 ±1 run (all feature rows real, equal; used against C1/C3) -/

/-- An 8×8 image of ±1 entries, periodic with period 4 in both axes, whose
four 4×4 blocks are identical and sign-mixed, and whose 2×2-average
half-scale image is periodic with period 2. -/
def img8 : Mat :=
  [[some 1, some 1, some 1, some 1, some 1, some 1, some 1, some 1],
   [some 1, some 1, some 1, some 1, some 1, some 1, some 1, some 1],
   [some 1, some 1, some (-1), some (-1), some 1, some 1, some (-1), some (-1)],
   [some 1, some 1, some (-1), some (-1), some 1, some 1, some (-1), some (-1)],
   [some 1, some 1, some 1, some 1, some 1, some 1, some 1, some 1],
   [some 1, some 1, some 1, some 1, some 1, some 1, some 1, some 1],
   [some 1, some 1, some (-1), some (-1), some 1, some 1, some (-1), some (-1)],
   [some 1, some 1, some (-1), some (-1), some 1, some 1, some (-1), some (-1)]]

/-- The common 4×4 block of `img8` at scale 1. -/
def blkP : Mat :=
  [[some 1, some 1, some 1, some 1],
   [some 1, some 1, some 1, some 1],
   [some 1, some 1, some (-1), some (-1)],
   [some 1, some 1, some (-1), some (-1)]]

/-- The half-scale image of `img8` under the 2×2-average resampler. -/
def img4half : Mat :=
  [[some 1, some 1, some 1, some 1],
   [some 1, some (-1), some 1, some (-1)],
   [some 1, some 1, some 1, some 1],
   [some 1, some (-1), some 1, some (-1)]]

/-- The common 2×2 block of the half-scale image at scale 2. -/
def blkQ : Mat := [[some 1, some 1], [some 1, some (-1)]]

theorem img8_allSome : allSomeB img8 = true := by rfl

theorem img8_rect : rectB img8 = true := by rfl

theorem img4half_allSome : allSomeB img4half = true := by rfl

theorem img4half_rect : rectB img4half = true := by rfl

theorem sliceBlock_img8_00 : sliceBlock img8 1 4 4 0 0 = blkP := by rfl

theorem sliceBlock_img8_10 : sliceBlock img8 1 4 4 1 0 = blkP := by rfl

theorem sliceBlock_img8_01 : sliceBlock img8 1 4 4 0 1 = blkP := by rfl

theorem sliceBlock_img8_11 : sliceBlock img8 1 4 4 1 1 = blkP := by rfl

theorem sliceBlock_img4half_00 : sliceBlock img4half 2 4 4 0 0 = blkQ := by rfl

theorem sliceBlock_img4half_10 : sliceBlock img4half 2 4 4 1 0 = blkQ := by rfl

theorem sliceBlock_img4half_01 : sliceBlock img4half 2 4 4 0 1 = blkQ := by rfl

theorem sliceBlock_img4half_11 : sliceBlock img4half 2 4 4 1 1 = blkQ := by rfl

theorem niqeCheckCrop_img8 : niqeCheckCrop (NpArr.d2 img8) 4 4 = .ok (img8, 2, 2) := by rfl

/-- `img8` with every entry divided by 255. -/
def D8 : Mat :=
  [[some (1 / 255), some (1 / 255), some (1 / 255), some (1 / 255), some (1 / 255), some (1 / 255), some (1 / 255), some (1 / 255)],
   [some (1 / 255), some (1 / 255), some (1 / 255), some (1 / 255), some (1 / 255), some (1 / 255), some (1 / 255), some (1 / 255)],
   [some (1 / 255), some (1 / 255), some (-1 / 255), some (-1 / 255), some (1 / 255), some (1 / 255), some (-1 / 255), some (-1 / 255)],
   [some (1 / 255), some (1 / 255), some (-1 / 255), some (-1 / 255), some (1 / 255), some (1 / 255), some (-1 / 255), some (-1 / 255)],
   [some (1 / 255), some (1 / 255), some (1 / 255), some (1 / 255), some (1 / 255), some (1 / 255), some (1 / 255), some (1 / 255)],
   [some (1 / 255), some (1 / 255), some (1 / 255), some (1 / 255), some (1 / 255), some (1 / 255), some (1 / 255), some (1 / 255)],
   [some (1 / 255), some (1 / 255), some (-1 / 255), some (-1 / 255), some (1 / 255), some (1 / 255), some (-1 / 255), some (-1 / 255)],
   [some (1 / 255), some (1 / 255), some (-1 / 255), some (-1 / 255), some (1 / 255), some (1 / 255), some (-1 / 255), some (-1 / 255)]]

theorem fdiv_some4 (a : ℝ) : fdiv (some a) (some 4) = some (a / 4) :=
  fdiv_some_of_ne a (by norm_num)

theorem niqeRescale_img8 : niqeRescale img8 = img4half := by
  have h255 : (255 : ℝ) ≠ 0 := by norm_num
  have hD : img8.map (List.map (fun x => fdiv x (some 255))) = D8 := by
    simp only [img8, List.map_cons, List.map_nil]
    rw [fdiv_some_of_ne 1 h255, fdiv_some_of_ne (-1) h255]
    rfl
  rw [niqeRescale, hD, imresizeHalf]
  have hl : (D8 : Mat).length = 8 := rfl
  have hc : ncols D8 = 8 := rfl
  rw [hl, hc]
  have hr4 : List.range (8 / 2) = [0, 1, 2, 3] := rfl
  rw [hr4]
  simp only [List.map_cons, List.map_nil]
  norm_num only
  simp only [
    show mget D8 0 0 = some (1 / 255) from rfl,
    show mget D8 0 1 = some (1 / 255) from rfl,
    show mget D8 0 2 = some (1 / 255) from rfl,
    show mget D8 0 3 = some (1 / 255) from rfl,
    show mget D8 0 4 = some (1 / 255) from rfl,
    show mget D8 0 5 = some (1 / 255) from rfl,
    show mget D8 0 6 = some (1 / 255) from rfl,
    show mget D8 0 7 = some (1 / 255) from rfl,
    show mget D8 1 0 = some (1 / 255) from rfl,
    show mget D8 1 1 = some (1 / 255) from rfl,
    show mget D8 1 2 = some (1 / 255) from rfl,
    show mget D8 1 3 = some (1 / 255) from rfl,
    show mget D8 1 4 = some (1 / 255) from rfl,
    show mget D8 1 5 = some (1 / 255) from rfl,
    show mget D8 1 6 = some (1 / 255) from rfl,
    show mget D8 1 7 = some (1 / 255) from rfl,
    show mget D8 2 0 = some (1 / 255) from rfl,
    show mget D8 2 1 = some (1 / 255) from rfl,
    show mget D8 2 2 = some (-1 / 255) from rfl,
    show mget D8 2 3 = some (-1 / 255) from rfl,
    show mget D8 2 4 = some (1 / 255) from rfl,
    show mget D8 2 5 = some (1 / 255) from rfl,
    show mget D8 2 6 = some (-1 / 255) from rfl,
    show mget D8 2 7 = some (-1 / 255) from rfl,
    show mget D8 3 0 = some (1 / 255) from rfl,
    show mget D8 3 1 = some (1 / 255) from rfl,
    show mget D8 3 2 = some (-1 / 255) from rfl,
    show mget D8 3 3 = some (-1 / 255) from rfl,
    show mget D8 3 4 = some (1 / 255) from rfl,
    show mget D8 3 5 = some (1 / 255) from rfl,
    show mget D8 3 6 = some (-1 / 255) from rfl,
    show mget D8 3 7 = some (-1 / 255) from rfl,
    show mget D8 4 0 = some (1 / 255) from rfl,
    show mget D8 4 1 = some (1 / 255) from rfl,
    show mget D8 4 2 = some (1 / 255) from rfl,
    show mget D8 4 3 = some (1 / 255) from rfl,
    show mget D8 4 4 = some (1 / 255) from rfl,
    show mget D8 4 5 = some (1 / 255) from rfl,
    show mget D8 4 6 = some (1 / 255) from rfl,
    show mget D8 4 7 = some (1 / 255) from rfl,
    show mget D8 5 0 = some (1 / 255) from rfl,
    show mget D8 5 1 = some (1 / 255) from rfl,
    show mget D8 5 2 = some (1 / 255) from rfl,
    show mget D8 5 3 = some (1 / 255) from rfl,
    show mget D8 5 4 = some (1 / 255) from rfl,
    show mget D8 5 5 = some (1 / 255) from rfl,
    show mget D8 5 6 = some (1 / 255) from rfl,
    show mget D8 5 7 = some (1 / 255) from rfl,
    show mget D8 6 0 = some (1 / 255) from rfl,
    show mget D8 6 1 = some (1 / 255) from rfl,
    show mget D8 6 2 = some (-1 / 255) from rfl,
    show mget D8 6 3 = some (-1 / 255) from rfl,
    show mget D8 6 4 = some (1 / 255) from rfl,
    show mget D8 6 5 = some (1 / 255) from rfl,
    show mget D8 6 6 = some (-1 / 255) from rfl,
    show mget D8 6 7 = some (-1 / 255) from rfl,
    show mget D8 7 0 = some (1 / 255) from rfl,
    show mget D8 7 1 = some (1 / 255) from rfl,
    show mget D8 7 2 = some (-1 / 255) from rfl,
    show mget D8 7 3 = some (-1 / 255) from rfl,
    show mget D8 7 4 = some (1 / 255) from rfl,
    show mget D8 7 5 = some (1 / 255) from rfl,
    show mget D8 7 6 = some (-1 / 255) from rfl,
    show mget D8 7 7 = some (-1 / 255) from rfl]
  simp only [fadd_some, fdiv_some4, fmul_some, img4half]
  norm_num

theorem scaleFeatures_img8 :
    scaleFeatures img8 win0 1 4 4 2 2 = List.replicate 4 (compute_feature blkP) := by
  rw [scaleFeatures, normalizeImg_win0 img8_allSome img8_rect]
  have hr2 : List.range 2 = [0, 1] := rfl
  rw [hr2]
  simp only [List.flatMap_cons, List.flatMap_nil, List.map_cons, List.map_nil, List.append_nil]
  rw [sliceBlock_img8_00, sliceBlock_img8_10, sliceBlock_img8_01, sliceBlock_img8_11]
  rfl

theorem scaleFeatures_img4half :
    scaleFeatures img4half win0 2 4 4 2 2 = List.replicate 4 (compute_feature blkQ) := by
  rw [scaleFeatures, normalizeImg_win0 img4half_allSome img4half_rect]
  have hr2 : List.range 2 = [0, 1] := rfl
  rw [hr2]
  simp only [List.flatMap_cons, List.flatMap_nil, List.map_cons, List.map_nil, List.append_nil]
  rw [sliceBlock_img4half_00, sliceBlock_img4half_10, sliceBlock_img4half_01,
    sliceBlock_img4half_11]
  rfl

/-- The distortion matrix of the ±1 run: four identical 36-feature rows. -/
theorem niqeDistparam_img8 :
    niqeDistparam (NpArr.d2 img8) win0 4 4 =
      .ok (List.replicate 4 (compute_feature blkP ++ compute_feature blkQ)) := by
  rw [niqeDistparam, niqeCheckCrop_img8]
  show npConcatCols (scaleFeatures img8 win0 1 4 4 2 2)
    (scaleFeatures (niqeRescale img8) win0 2 4 4 2 2) = _
  rw [scaleFeatures_img8, niqeRescale_img8, scaleFeatures_img4half, npConcatCols,
    if_neg (by simp)]
  rfl

theorem foldl_fadd_some_nonneg (l : List RVal) :
    ∀ c : ℝ, 0 ≤ c → (∀ x ∈ l, ∃ a, x = some a ∧ 0 ≤ a) →
    ∃ s, List.foldl fadd (some c) l = some s ∧ 0 ≤ s := by
  induction l with
  | nil =>
      intro c hc _
      exact ⟨c, rfl, hc⟩
  | cons x xs ih =>
      intro c hc hall
      obtain ⟨a, rfl, ha⟩ := hall x (List.mem_cons_self x xs)
      simp only [List.foldl_cons, fadd_some]
      exact ih (c + a) (by linarith) (fun y hy => hall y (List.mem_cons_of_mem _ hy))

theorem fsum_some_nonneg (l : List RVal) (h : ∀ x ∈ l, ∃ a, x = some a ∧ 0 ≤ a) :
    ∃ s, fsum l = some s ∧ 0 ≤ s :=
  foldl_fadd_some_nonneg l 0 le_rfl h

theorem aggdLeftStd_some {l : List RVal} (hn : l.filter isNegV ≠ []) :
    ∃ v, aggdLeftStd l = some v ∧ 0 ≤ v := by
  rw [aggdLeftStd]
  have hall : ∀ x ∈ (l.filter isNegV).map fsq, ∃ a, x = some a ∧ 0 ≤ a := by
    intro x hx
    obtain ⟨y, hy, rfl⟩ := List.mem_map.mp hx
    have hyp := List.of_mem_filter hy
    cases y with
    | none => simp [isNegV] at hyp
    | some a => exact ⟨a * a, rfl, mul_self_nonneg a⟩
  obtain ⟨s, hs, hs0⟩ := fsum_some_nonneg _ hall
  have hne : (l.filter isNegV).map fsq ≠ [] := by simpa using hn
  have hlp : 0 < (((l.filter isNegV).map fsq).length : ℝ) := by
    exact_mod_cast List.length_pos.mpr hne
  rw [fmean, hs, fdiv_some_of_ne _ (ne_of_gt hlp),
    fsqrt_some_of_nonneg (div_nonneg hs0 (le_of_lt hlp))]
  exact ⟨_, rfl, Real.sqrt_nonneg _⟩

theorem aggdRightStd_some {l : List RVal} (hp : l.filter isPosV ≠ []) :
    ∃ v, aggdRightStd l = some v ∧ 0 ≤ v := by
  rw [aggdRightStd]
  have hall : ∀ x ∈ (l.filter isPosV).map fsq, ∃ a, x = some a ∧ 0 ≤ a := by
    intro x hx
    obtain ⟨y, hy, rfl⟩ := List.mem_map.mp hx
    have hyp := List.of_mem_filter hy
    cases y with
    | none => simp [isPosV] at hyp
    | some a => exact ⟨a * a, rfl, mul_self_nonneg a⟩
  obtain ⟨s, hs, hs0⟩ := fsum_some_nonneg _ hall
  have hne : (l.filter isPosV).map fsq ≠ [] := by simpa using hp
  have hlp : 0 < (((l.filter isPosV).map fsq).length : ℝ) := by
    exact_mod_cast List.length_pos.mpr hne
  rw [fmean, hs, fdiv_some_of_ne _ (ne_of_gt hlp),
    fsqrt_some_of_nonneg (div_nonneg hs0 (le_of_lt hlp))]
  exact ⟨_, rfl, Real.sqrt_nonneg _⟩

theorem aggdAlpha_grid (block : List RVal) :
    ∃ i : ℕ, i < 9801 ∧ aggdAlpha block = ((i : ℝ) + 200) / 1000 := by
  have hk : nanArgmin (aggdErrs block) < 9801 := by
    have := nanArgmin_lt (aggdErrs_ne_nil block)
    have hlen := aggdErrs_length block
    omega
  have hk' : nanArgmin (aggdErrs block) < gamGrid.length := by
    rw [gamGrid_length]; exact hk
  refine ⟨nanArgmin (aggdErrs block), hk, ?_⟩
  rw [aggdAlpha, List.getD_eq_getElem gamGrid 0 hk']
  exact gamGrid_getElem _ hk'

theorem aggdAlpha_fifth_le (block : List RVal) :
    1 / 5 ≤ aggdAlpha block := by
  obtain ⟨i, hi, ha⟩ := aggdAlpha_grid block
  rw [ha]
  exact (gamGrid_bounds i hi).1

theorem aggdAlpha_pos (block : List RVal) : 0 < aggdAlpha block :=
  lt_of_lt_of_le (by norm_num) (aggdAlpha_fifth_le block)

theorem estimate_alpha_pos (l : List RVal) : 0 < (estimate_aggd_param l).1 := by
  simp only [estimate_aggd_param]
  exact aggdAlpha_pos l

theorem estimate_some_of_mixed {l : List RVal}
    (hn : l.filter isNegV ≠ []) (hp : l.filter isPosV ≠ []) :
    (∃ v, (estimate_aggd_param l).2.1 = some v) ∧
    (∃ v, (estimate_aggd_param l).2.2 = some v) := by
  obtain ⟨v1, h1, _⟩ := aggdLeftStd_some hn
  obtain ⟨v2, h2, _⟩ := aggdRightStd_some hp
  have hbf := @aggdBetaFactor_eval l (aggdAlpha l) rfl (aggdAlpha_pos l)
  constructor
  · simp only [estimate_aggd_param]
    rw [h1, hbf, fmul_some]
    exact ⟨_, rfl⟩
  · simp only [estimate_aggd_param]
    rw [h2, hbf, fmul_some]
    exact ⟨_, rfl⟩

/-- A block whose own samples and all four shift products contain both
signs yields an 18-feature vector with no NaN at all. -/
theorem compute_feature_all_some {m : Mat}
    (h0n : (npFlatten m).filter isNegV ≠ []) (h0p : (npFlatten m).filter isPosV ≠ [])
    (hs : ∀ s ∈ featShifts,
      (npFlatten (ewMul m (np_roll2 m s))).filter isNegV ≠ [] ∧
      (npFlatten (ewMul m (np_roll2 m s))).filter isPosV ≠ []) :
    ∀ x ∈ compute_feature m, x.isSome = true := by
  intro x hx
  rw [compute_feature] at hx
  rcases List.mem_append.mp hx with hx | hx
  · simp only [List.mem_cons, List.not_mem_nil, or_false] at hx
    rcases hx with rfl | rfl
    · rfl
    · obtain ⟨⟨v1, hv1⟩, ⟨v2, hv2⟩⟩ := estimate_some_of_mixed h0n h0p
      rw [hv1, hv2, fadd_some, fdiv_some_of_ne _ (by norm_num : (2 : ℝ) ≠ 0)]
      rfl
  · obtain ⟨s, hsmem, hx⟩ := List.mem_flatMap.mp hx
    rw [featOfShift] at hx
    obtain ⟨hn, hp⟩ := hs s hsmem
    obtain ⟨⟨v1, hv1⟩, ⟨v2, hv2⟩⟩ := estimate_some_of_mixed hn hp
    have hgpos : 0 < Real.Gamma (1 / (estimate_aggd_param
        (npFlatten (ewMul m (np_roll2 m s)))).1) :=
      Real.Gamma_pos_of_pos (div_pos one_pos (estimate_alpha_pos _))
    simp only [List.mem_cons, List.not_mem_nil, or_false] at hx
    rcases hx with rfl | rfl | rfl | rfl
    · rfl
    · rw [hv1, hv2, fsub_some, fdiv_some_of_ne _ (ne_of_gt hgpos), fmul_some]
      rfl
    · rw [hv1]; rfl
    · rw [hv2]; rfl

theorem flatP_eq : npFlatten blkP = [some 1, some 1, some 1, some 1, some 1, some 1, some 1, some 1, some 1, some 1, some (-1), some (-1), some 1, some 1, some (-1), some (-1)] := rfl

theorem flatP_neg : (npFlatten blkP).filter isNegV ≠ [] := by
  rw [flatP_eq]
  apply @List.ne_nil_of_mem _ (some (-1 : ℝ)) _
  apply List.mem_filter.mpr
  refine ⟨by norm_num, by norm_num [isNegV]⟩

theorem flatP_pos : (npFlatten blkP).filter isPosV ≠ [] := by
  rw [flatP_eq]
  apply @List.ne_nil_of_mem _ (some (1 : ℝ)) _
  apply List.mem_filter.mpr
  refine ⟨by norm_num, by norm_num [isPosV]⟩

theorem prodP0_eq : npFlatten (ewMul blkP (np_roll2 blkP (0, 1))) =
    [some (1 * 1), some (1 * 1), some (1 * 1), some (1 * 1), some (1 * 1), some (1 * 1), some (1 * 1), some (1 * 1), some (1 * (-1)), some (1 * 1), some ((-1) * 1), some ((-1) * (-1)), some (1 * (-1)), some (1 * 1), some ((-1) * 1), some ((-1) * (-1))] := rfl

theorem prodP0_neg : (npFlatten (ewMul blkP (np_roll2 blkP (0, 1)))).filter isNegV ≠ [] := by
  rw [prodP0_eq]
  apply @List.ne_nil_of_mem _ (some ((1 : ℝ) * (-1))) _
  apply List.mem_filter.mpr
  refine ⟨by norm_num, by norm_num [isNegV]⟩

theorem prodP0_pos : (npFlatten (ewMul blkP (np_roll2 blkP (0, 1)))).filter isPosV ≠ [] := by
  rw [prodP0_eq]
  apply @List.ne_nil_of_mem _ (some ((1 : ℝ) * 1)) _
  apply List.mem_filter.mpr
  refine ⟨by norm_num, by norm_num [isPosV]⟩

theorem prodP1_eq : npFlatten (ewMul blkP (np_roll2 blkP (1, 0))) =
    [some (1 * 1), some (1 * 1), some (1 * (-1)), some (1 * (-1)), some (1 * 1), some (1 * 1), some (1 * 1), some (1 * 1), some (1 * 1), some (1 * 1), some ((-1) * 1), some ((-1) * 1), some (1 * 1), some (1 * 1), some ((-1) * (-1)), some ((-1) * (-1))] := rfl

theorem prodP1_neg : (npFlatten (ewMul blkP (np_roll2 blkP (1, 0)))).filter isNegV ≠ [] := by
  rw [prodP1_eq]
  apply @List.ne_nil_of_mem _ (some ((1 : ℝ) * (-1))) _
  apply List.mem_filter.mpr
  refine ⟨by norm_num, by norm_num [isNegV]⟩

theorem prodP1_pos : (npFlatten (ewMul blkP (np_roll2 blkP (1, 0)))).filter isPosV ≠ [] := by
  rw [prodP1_eq]
  apply @List.ne_nil_of_mem _ (some ((1 : ℝ) * 1)) _
  apply List.mem_filter.mpr
  refine ⟨by norm_num, by norm_num [isPosV]⟩

theorem prodP2_eq : npFlatten (ewMul blkP (np_roll2 blkP (1, 1))) =
    [some (1 * (-1)), some (1 * 1), some (1 * 1), some (1 * (-1)), some (1 * 1), some (1 * 1), some (1 * 1), some (1 * 1), some (1 * 1), some (1 * 1), some ((-1) * 1), some ((-1) * 1), some (1 * (-1)), some (1 * 1), some ((-1) * 1), some ((-1) * (-1))] := rfl

theorem prodP2_neg : (npFlatten (ewMul blkP (np_roll2 blkP (1, 1)))).filter isNegV ≠ [] := by
  rw [prodP2_eq]
  apply @List.ne_nil_of_mem _ (some ((1 : ℝ) * (-1))) _
  apply List.mem_filter.mpr
  refine ⟨by norm_num, by norm_num [isNegV]⟩

theorem prodP2_pos : (npFlatten (ewMul blkP (np_roll2 blkP (1, 1)))).filter isPosV ≠ [] := by
  rw [prodP2_eq]
  apply @List.ne_nil_of_mem _ (some ((1 : ℝ) * 1)) _
  apply List.mem_filter.mpr
  refine ⟨by norm_num, by norm_num [isPosV]⟩

theorem prodP3_eq : npFlatten (ewMul blkP (np_roll2 blkP (1, -1))) =
    [some (1 * 1), some (1 * (-1)), some (1 * (-1)), some (1 * 1), some (1 * 1), some (1 * 1), some (1 * 1), some (1 * 1), some (1 * 1), some (1 * 1), some ((-1) * 1), some ((-1) * 1), some (1 * 1), some (1 * (-1)), some ((-1) * (-1)), some ((-1) * 1)] := rfl

theorem prodP3_neg : (npFlatten (ewMul blkP (np_roll2 blkP (1, -1)))).filter isNegV ≠ [] := by
  rw [prodP3_eq]
  apply @List.ne_nil_of_mem _ (some ((1 : ℝ) * (-1))) _
  apply List.mem_filter.mpr
  refine ⟨by norm_num, by norm_num [isNegV]⟩

theorem prodP3_pos : (npFlatten (ewMul blkP (np_roll2 blkP (1, -1)))).filter isPosV ≠ [] := by
  rw [prodP3_eq]
  apply @List.ne_nil_of_mem _ (some ((1 : ℝ) * 1)) _
  apply List.mem_filter.mpr
  refine ⟨by norm_num, by norm_num [isPosV]⟩

theorem flatQ_eq : npFlatten blkQ = [some 1, some 1, some 1, some (-1)] := rfl

theorem flatQ_neg : (npFlatten blkQ).filter isNegV ≠ [] := by
  rw [flatQ_eq]
  apply @List.ne_nil_of_mem _ (some (-1 : ℝ)) _
  apply List.mem_filter.mpr
  refine ⟨by norm_num, by norm_num [isNegV]⟩

theorem flatQ_pos : (npFlatten blkQ).filter isPosV ≠ [] := by
  rw [flatQ_eq]
  apply @List.ne_nil_of_mem _ (some (1 : ℝ)) _
  apply List.mem_filter.mpr
  refine ⟨by norm_num, by norm_num [isPosV]⟩

theorem prodQ0_eq : npFlatten (ewMul blkQ (np_roll2 blkQ (0, 1))) =
    [some (1 * 1), some (1 * 1), some (1 * (-1)), some ((-1) * 1)] := rfl

theorem prodQ0_neg : (npFlatten (ewMul blkQ (np_roll2 blkQ (0, 1)))).filter isNegV ≠ [] := by
  rw [prodQ0_eq]
  apply @List.ne_nil_of_mem _ (some ((1 : ℝ) * (-1))) _
  apply List.mem_filter.mpr
  refine ⟨by norm_num, by norm_num [isNegV]⟩

theorem prodQ0_pos : (npFlatten (ewMul blkQ (np_roll2 blkQ (0, 1)))).filter isPosV ≠ [] := by
  rw [prodQ0_eq]
  apply @List.ne_nil_of_mem _ (some ((1 : ℝ) * 1)) _
  apply List.mem_filter.mpr
  refine ⟨by norm_num, by norm_num [isPosV]⟩

theorem prodQ1_eq : npFlatten (ewMul blkQ (np_roll2 blkQ (1, 0))) =
    [some (1 * 1), some (1 * (-1)), some (1 * 1), some ((-1) * 1)] := rfl

theorem prodQ1_neg : (npFlatten (ewMul blkQ (np_roll2 blkQ (1, 0)))).filter isNegV ≠ [] := by
  rw [prodQ1_eq]
  apply @List.ne_nil_of_mem _ (some ((1 : ℝ) * (-1))) _
  apply List.mem_filter.mpr
  refine ⟨by norm_num, by norm_num [isNegV]⟩

theorem prodQ1_pos : (npFlatten (ewMul blkQ (np_roll2 blkQ (1, 0)))).filter isPosV ≠ [] := by
  rw [prodQ1_eq]
  apply @List.ne_nil_of_mem _ (some ((1 : ℝ) * 1)) _
  apply List.mem_filter.mpr
  refine ⟨by norm_num, by norm_num [isPosV]⟩

theorem prodQ2_eq : npFlatten (ewMul blkQ (np_roll2 blkQ (1, 1))) =
    [some (1 * (-1)), some (1 * 1), some (1 * 1), some ((-1) * 1)] := rfl

theorem prodQ2_neg : (npFlatten (ewMul blkQ (np_roll2 blkQ (1, 1)))).filter isNegV ≠ [] := by
  rw [prodQ2_eq]
  apply @List.ne_nil_of_mem _ (some ((1 : ℝ) * (-1))) _
  apply List.mem_filter.mpr
  refine ⟨by norm_num, by norm_num [isNegV]⟩

theorem prodQ2_pos : (npFlatten (ewMul blkQ (np_roll2 blkQ (1, 1)))).filter isPosV ≠ [] := by
  rw [prodQ2_eq]
  apply @List.ne_nil_of_mem _ (some ((1 : ℝ) * 1)) _
  apply List.mem_filter.mpr
  refine ⟨by norm_num, by norm_num [isPosV]⟩

theorem prodQ3_eq : npFlatten (ewMul blkQ (np_roll2 blkQ (1, -1))) =
    [some (1 * (-1)), some (1 * 1), some (1 * 1), some ((-1) * 1)] := rfl

theorem prodQ3_neg : (npFlatten (ewMul blkQ (np_roll2 blkQ (1, -1)))).filter isNegV ≠ [] := by
  rw [prodQ3_eq]
  apply @List.ne_nil_of_mem _ (some ((1 : ℝ) * (-1))) _
  apply List.mem_filter.mpr
  refine ⟨by norm_num, by norm_num [isNegV]⟩

theorem prodQ3_pos : (npFlatten (ewMul blkQ (np_roll2 blkQ (1, -1)))).filter isPosV ≠ [] := by
  rw [prodQ3_eq]
  apply @List.ne_nil_of_mem _ (some ((1 : ℝ) * 1)) _
  apply List.mem_filter.mpr
  refine ⟨by norm_num, by norm_num [isPosV]⟩

theorem cf_blkP_all_some : ∀ x ∈ compute_feature blkP, x.isSome = true := by
  apply compute_feature_all_some flatP_neg flatP_pos
  intro s hs
  fin_cases hs
  · exact ⟨prodP0_neg, prodP0_pos⟩
  · exact ⟨prodP1_neg, prodP1_pos⟩
  · exact ⟨prodP2_neg, prodP2_pos⟩
  · exact ⟨prodP3_neg, prodP3_pos⟩

theorem cf_blkQ_all_some : ∀ x ∈ compute_feature blkQ, x.isSome = true := by
  apply compute_feature_all_some flatQ_neg flatQ_pos
  intro s hs
  fin_cases hs
  · exact ⟨prodQ0_neg, prodQ0_pos⟩
  · exact ⟨prodQ1_neg, prodQ1_pos⟩
  · exact ⟨prodQ2_neg, prodQ2_pos⟩
  · exact ⟨prodQ3_neg, prodQ3_pos⟩

/-- The common feature row of the ±1 run. -/
def rowPQ : List RVal := compute_feature blkP ++ compute_feature blkQ

theorem rowPQ_length : rowPQ.length = 36 := by
  rw [rowPQ, List.length_append, compute_feature_length, compute_feature_length]

theorem rowPQ_all_some : ∀ x ∈ rowPQ, x.isSome = true := by
  intro x hx
  rcases List.mem_append.mp hx with h | h
  · exact cf_blkP_all_some x h
  · exact cf_blkQ_all_some x h

theorem rowPQ_noNaN : rowNoNaN rowPQ = true := by
  rw [rowNoNaN]
  have h : rowPQ.any (·.isNone) = false := by
    rw [List.any_eq_false]
    intro x hx
    have := rowPQ_all_some x hx
    cases x with
    | none => simp at this
    | some v => simp
  rw [h]
  rfl

theorem pooledCov_length (A B : Mat) : (pooledCov A B).length = min A.length B.length := by
  rw [pooledCov, List.length_map, List.length_zipWith]

theorem pooledCov_row0_length (A B : Mat) (hA : 0 < A.length) (hB : 0 < B.length) :
    ((pooledCov A B).getD 0 []).length =
      min ((A.getD 0 []).length) ((B.getD 0 []).length) := by
  rw [pooledCov]
  have h1 : ((List.zipWith (List.zipWith fadd) A B).map
      (List.map (fun x => fdiv x (some 2)))).getD 0 [] =
      List.map (fun x => fdiv x (some 2))
        ((List.zipWith (List.zipWith fadd) A B).getD 0 []) := by
    have h := @List.getD_map _ _ (List.zipWith (List.zipWith fadd) A B) [] 0
      (List.map (fun x => fdiv x (some 2)))
    simpa using h
  rw [h1, List.length_map]
  have hz : 0 < (List.zipWith (List.zipWith fadd) A B).length := by
    rw [List.length_zipWith]
    omega
  rw [List.getD_eq_getElem _ _ hz, List.getElem_zipWith, List.length_zipWith,
    List.getD_eq_getElem _ _ hA, List.getD_eq_getElem _ _ hB]

/-- The ±1 run with NaN in the caller's pristine covariance: all feature
rows are real and kept, yet `pinv` raises the same generic `LinAlgError`
as in the empty-sample case. -/
theorem niqe_img8_nanCov_linalg :
    niqe (NpArr.d2 img8) (List.replicate 36 (some 0))
      (List.replicate 36 (List.replicate 36 (none : RVal))) win0 4 4 =
      .error .linAlgError := by
  rw [niqe, niqeDistparam_img8]
  show niqeAggregate _ _ _ = _
  rw [niqeAggregate]
  have hp : ((List.replicate 4 (compute_feature blkP ++ compute_feature blkQ)).head?.getD
      []).length = 36 := by
    rw [show List.replicate 4 (compute_feature blkP ++ compute_feature blkQ) =
      (compute_feature blkP ++ compute_feature blkQ) ::
        List.replicate 3 (compute_feature blkP ++ compute_feature blkQ) from rfl]
    simp only [List.head?_cons, Option.getD_some]
    exact rowPQ_length
  rw [hp]
  have hkept : dropNaNRows (List.replicate 4 (compute_feature blkP ++ compute_feature blkQ)) =
      List.replicate 4 (compute_feature blkP ++ compute_feature blkQ) := by
    rw [dropNaNRows, List.filter_eq_self]
    intro r hr
    rw [List.eq_of_mem_replicate hr]
    exact rowPQ_noNaN
  rw [hkept]
  have hcovne : npCov 36 (List.replicate 4 (compute_feature blkP ++ compute_feature blkQ)) =
      (List.range 36).map (fun (i : ℕ) => (List.range 36).map (fun (j : ℕ) =>
        fdiv (fsum ((List.replicate 4 (compute_feature blkP ++ compute_feature blkQ)).map
          (fun r => fmul
            (fsub (r.getD i none) (fmean (colAt (List.replicate 4
              (compute_feature blkP ++ compute_feature blkQ)) i)))
            (fsub (r.getD j none) (fmean (colAt (List.replicate 4
              (compute_feature blkP ++ compute_feature blkQ)) j))))))
          (some (((List.replicate 4 (compute_feature blkP ++ compute_feature blkQ)).length :
            ℝ) - 1)))) := by
    rw [npCov, if_neg (by simp)]
  rw [hcovne]
  have hBl : ((List.range 36).map (fun (i : ℕ) => (List.range 36).map (fun (j : ℕ) =>
      fdiv (fsum ((List.replicate 4 (compute_feature blkP ++ compute_feature blkQ)).map
        (fun r => fmul
          (fsub (r.getD i none) (fmean (colAt (List.replicate 4
            (compute_feature blkP ++ compute_feature blkQ)) i)))
          (fsub (r.getD j none) (fmean (colAt (List.replicate 4
            (compute_feature blkP ++ compute_feature blkQ)) j))))))
        (some (((List.replicate 4 (compute_feature blkP ++ compute_feature blkQ)).length :
          ℝ) - 1))))).length = 36 := by
    simp
  have hnanA : mget (List.replicate 36 (List.replicate 36 (none : RVal))) 0 0 = none :=
    mget_replicate _ (by norm_num) (by norm_num)
  have hval : mget (pooledCov (List.replicate 36 (List.replicate 36 (none : RVal)))
      ((List.range 36).map (fun (i : ℕ) => (List.range 36).map (fun (j : ℕ) =>
        fdiv (fsum ((List.replicate 4 (compute_feature blkP ++ compute_feature blkQ)).map
          (fun r => fmul
            (fsub (r.getD i none) (fmean (colAt (List.replicate 4
              (compute_feature blkP ++ compute_feature blkQ)) i)))
            (fsub (r.getD j none) (fmean (colAt (List.replicate 4
              (compute_feature blkP ++ compute_feature blkQ)) j))))))
          (some (((List.replicate 4 (compute_feature blkP ++ compute_feature blkQ)).length :
            ℝ) - 1)))))) 0 0 = none := by
    rw [mget_pooledCov, hnanA, fadd_none_left, fdiv_none_left]
  have hlen1 : 0 < (pooledCov (List.replicate 36 (List.replicate 36 (none : RVal)))
      ((List.range 36).map (fun (i : ℕ) => (List.range 36).map (fun (j : ℕ) =>
        fdiv (fsum ((List.replicate 4 (compute_feature blkP ++ compute_feature blkQ)).map
          (fun r => fmul
            (fsub (r.getD i none) (fmean (colAt (List.replicate 4
              (compute_feature blkP ++ compute_feature blkQ)) i)))
            (fsub (r.getD j none) (fmean (colAt (List.replicate 4
              (compute_feature blkP ++ compute_feature blkQ)) j))))))
          (some (((List.replicate 4 (compute_feature blkP ++ compute_feature blkQ)).length :
            ℝ) - 1)))))).length := by
    rw [pooledCov_length, hBl]
    simp
  have hrl : 0 < ((pooledCov (List.replicate 36 (List.replicate 36 (none : RVal)))
      ((List.range 36).map (fun (i : ℕ) => (List.range 36).map (fun (j : ℕ) =>
        fdiv (fsum ((List.replicate 4 (compute_feature blkP ++ compute_feature blkQ)).map
          (fun r => fmul
            (fsub (r.getD i none) (fmean (colAt (List.replicate 4
              (compute_feature blkP ++ compute_feature blkQ)) i)))
            (fsub (r.getD j none) (fmean (colAt (List.replicate 4
              (compute_feature blkP ++ compute_feature blkQ)) j))))))
          (some (((List.replicate 4 (compute_feature blkP ++ compute_feature blkQ)).length :
            ℝ) - 1)))))).getD 0 []).length := by
    rw [pooledCov_row0_length _ _ (by simp) (by rw [hBl]; norm_num)]
    have h2 : ((List.replicate 36 (List.replicate 36 (none : RVal))).getD 0 []).length
        = 36 := by
      rw [List.getD_eq_getElem _ _ (by simp : (0 : ℕ) < (List.replicate 36
        (List.replicate 36 (none : RVal))).length), List.getElem_replicate]
      simp
    rw [h2]
    have h3 : (((List.range 36).map (fun (i : ℕ) => (List.range 36).map (fun (j : ℕ) =>
        fdiv (fsum ((List.replicate 4 (compute_feature blkP ++ compute_feature blkQ)).map
          (fun r => fmul
            (fsub (r.getD i none) (fmean (colAt (List.replicate 4
              (compute_feature blkP ++ compute_feature blkQ)) i)))
            (fsub (r.getD j none) (fmean (colAt (List.replicate 4
              (compute_feature blkP ++ compute_feature blkQ)) j))))))
          (some (((List.replicate 4 (compute_feature blkP ++ compute_feature blkQ)).length :
            ℝ) - 1))))).getD 0 []).length = 36 := by
      rw [List.getD_eq_getElem _ _ (by simp)]
      simp only [List.getElem_map, List.getElem_range]
      simp
    rw [h3]
    norm_num
  have hfin := matHasNaN_of_mget_none hval hlen1 hrl
  rw [npPinv, if_pos hfin]

/-- C3 counterexample: the all-zero 8×8 run (every distortion row contains
NaN, the empty-sample-covariance condition) fails with the generic
`LinAlgError`; but so does a run whose distortion rows are all real and
kept, where the NaN comes instead from the caller's pristine covariance.
The empty-sample condition is therefore not reported as a distinct,
identifiable failure — both causes surface as the same exception. -/
theorem C3_counterexample_not_distinct :
    niqe (NpArr.d2 img8z) (List.replicate 36 (some 0)) zeros3636 win0 4 4 =
      .error .linAlgError ∧
    niqe (NpArr.d2 img8) (List.replicate 36 (some 0))
      (List.replicate 36 (List.replicate 36 (none : RVal))) win0 4 4 =
      .error .linAlgError :=
  ⟨niqe_img8z_linalg, niqe_img8_nanCov_linalg⟩


/-! ## The pseudo-inverse of scaled identity matrices

The C1 counterexample run produces a pooled matrix `−½·I₃₆`; this section
computes `pinvR` there from the Moore–Penrose equations alone. -/

/-- The scaled identity matrix over the reals. -/
def scalarRMat (c : ℝ) (n : ℕ) : RMat :=
  (List.range n).map (fun (i : ℕ) =>
    (List.range n).map (fun (j : ℕ) => if i = j then c else 0))

/-- Elementwise scaling of a real matrix. -/
def scaleRM (c : ℝ) (m : RMat) : RMat := m.map (List.map (fun x => c * x))

/-- Entry lookup in a real matrix, with default `0`. -/
def rget (m : RMat) (i j : ℕ) : ℝ := (m.getD i []).getD j 0

theorem getD_range_map {β : Type} (n : ℕ) (g : ℕ → β) (d : β) (i : ℕ) (hi : i < n) :
    ((List.range n).map g).getD i d = g i := by
  rw [List.getD_eq_getElem _ _ (by rw [List.length_map, List.length_range]; exact hi),
    List.getElem_map, List.getElem_range]

theorem getD_range_map_ge {β : Type} (n : ℕ) (g : ℕ → β) (d : β) (i : ℕ) (hi : n ≤ i) :
    ((List.range n).map g).getD i d = d :=
  List.getD_eq_default _ _ (by rw [List.length_map, List.length_range]; exact hi)

/-- Two real matrices with the same row lengths and the same entries are
equal. -/
theorem rmat_ext {A B : RMat} (hlen : A.length = B.length)
    (hrow : ∀ i : ℕ, (A.getD i []).length = (B.getD i []).length)
    (hval : ∀ i j : ℕ, rget A i j = rget B i j) : A = B := by
  apply List.ext_getElem hlen
  intro i h1 h2
  apply List.ext_getElem
  · have := hrow i
    rwa [List.getD_eq_getElem _ _ h1, List.getD_eq_getElem _ _ h2] at this
  · intro j g1 g2
    have := hval i j
    rwa [rget, rget, List.getD_eq_getElem _ _ h1, List.getD_eq_getElem _ _ h2,
      List.getD_eq_getElem _ _ g1, List.getD_eq_getElem _ _ g2] at this

theorem scalarRMat_length (c : ℝ) (n : ℕ) : (scalarRMat c n).length = n := by
  rw [scalarRMat, List.length_map, List.length_range]

theorem scalarRMat_rows (c : ℝ) (n : ℕ) : ∀ r ∈ scalarRMat c n, r.length = n := by
  intro r hr
  obtain ⟨i, -, rfl⟩ := List.mem_map.mp hr
  rw [List.length_map, List.length_range]

theorem scalarRMat_getD (c : ℝ) (n i : ℕ) (hi : i < n) :
    (scalarRMat c n).getD i [] =
      (List.range n).map (fun (j : ℕ) => if i = j then c else 0) := by
  rw [scalarRMat, getD_range_map n _ [] i hi]

theorem scalarRMat_getD_ge (c : ℝ) (n i : ℕ) (hi : n ≤ i) :
    (scalarRMat c n).getD i [] = [] := by
  rw [scalarRMat, getD_range_map_ge n _ [] i hi]

theorem rget_scalarRMat (c : ℝ) (n i j : ℕ) (hi : i < n) (hj : j < n) :
    rget (scalarRMat c n) i j = if i = j then c else 0 := by
  rw [rget, scalarRMat_getD c n i hi, getD_range_map n _ 0 j hj]

theorem rget_scalarRMat_left (c : ℝ) (n i j : ℕ) (hi : n ≤ i) :
    rget (scalarRMat c n) i j = 0 := by
  rw [rget, scalarRMat_getD_ge c n i hi]
  rfl

theorem rget_scalarRMat_right (c : ℝ) (n i j : ℕ) (hj : n ≤ j) :
    rget (scalarRMat c n) i j = 0 := by
  rcases Nat.lt_or_ge i n with h | h
  · rw [rget, scalarRMat_getD c n i h, getD_range_map_ge n _ 0 j hj]
  · exact rget_scalarRMat_left c n i j h

theorem ncolsR_eq_getD (m : RMat) : ncolsR m = (m.getD 0 []).length := by
  rw [ncolsR, List.getD_eq_getElem?_getD, ← List.head?_eq_getElem?]

theorem ncolsR_scalarRMat (c : ℝ) {n : ℕ} (hn : 0 < n) : ncolsR (scalarRMat c n) = n := by
  rw [ncolsR_eq_getD, scalarRMat_getD c n 0 hn, List.length_map, List.length_range]

theorem ncolsR_eq_of_rect {B : RMat} {n : ℕ} (hB : B.length = n)
    (hrect : ∀ r ∈ B, r.length = n) (hn : 0 < n) : ncolsR B = n := by
  cases B with
  | nil => rw [← hB] at hn; simp at hn
  | cons r rs =>
      rw [ncolsR, List.head?_cons, Option.getD_some]
      exact hrect r (List.mem_cons_self r rs)

theorem dotR_cons (a : ℝ) (u : List ℝ) (b : ℝ) (v : List ℝ) :
    dotR (a :: u) (b :: v) = a * b + dotR u v := by
  rw [dotR, dotR, List.zipWith_cons_cons, List.sum_cons]

theorem dotR_replicate_zero (k : ℕ) (v : List ℝ) : dotR (List.replicate k 0) v = 0 := by
  induction v generalizing k with
  | nil => rw [dotR]; cases k <;> simp
  | cons y ys ih =>
      cases k with
      | zero => rfl
      | succ k' => rw [List.replicate_succ, dotR_cons, ih, zero_mul, add_zero]

theorem dotR_comm (u v : List ℝ) : dotR u v = dotR v u := by
  induction u generalizing v with
  | nil => cases v <;> rfl
  | cons a us ih =>
      cases v with
      | nil => rfl
      | cons b vs => rw [dotR_cons, dotR_cons, ih, mul_comm]

/-- Dot product against a standard-basis-style row. -/
theorem dotR_delta (c : ℝ) (n : ℕ) (v : List ℝ) (hv : v.length = n) (i : ℕ) (hi : i < n) :
    dotR ((List.range n).map (fun (j : ℕ) => if i = j then c else 0)) v =
      c * v.getD i 0 := by
  subst hv
  induction v generalizing i with
  | nil => simp at hi
  | cons x xs ih =>
      rw [List.length_cons, List.range_succ_eq_map, List.map_cons, List.map_map]
      cases i with
      | zero =>
          rw [if_pos rfl, dotR_cons]
          have h0 : (List.range xs.length).map
              ((fun (j : ℕ) => if 0 = j then c else 0) ∘ Nat.succ) =
              (List.range xs.length).map (fun (_ : ℕ) => (0 : ℝ)) := by
            apply List.map_congr_left
            intro a _
            simp only [Function.comp_apply]
            rw [if_neg (by omega)]
          rw [h0, List.map_const', List.length_range, dotR_replicate_zero, add_zero,
            List.getD_cons_zero]
      | succ k =>
          rw [if_neg (by omega), dotR_cons, zero_mul, zero_add]
          have h1 : (List.range xs.length).map
              ((fun (j : ℕ) => if k + 1 = j then c else 0) ∘ Nat.succ) =
              (List.range xs.length).map (fun (j : ℕ) => if k = j then c else 0) := by
            apply List.map_congr_left
            intro a _
            simp only [Function.comp_apply]
            by_cases h : k = a
            · rw [if_pos (by omega), if_pos h]
            · rw [if_neg (by omega), if_neg h]
          rw [h1, ih k (by simpa using hi), List.getD_cons_succ]

theorem colR_getD (B : RMat) (i j : ℕ) :
    (colR B j).getD i 0 = (B.getD i []).getD j 0 := by
  rw [colR]
  rcases Nat.lt_or_ge i B.length with h | h
  · rw [List.getD_eq_getElem _ _ (by rw [List.length_map]; exact h), List.getElem_map,
      List.getD_eq_getElem _ _ h]
  · rw [List.getD_eq_default _ _ (by rw [List.length_map]; exact h),
      List.getD_eq_default _ _ h]
    rfl

theorem colR_length (B : RMat) (j : ℕ) : (colR B j).length = B.length := by
  rw [colR, List.length_map]

theorem matMulR_length (a b : RMat) : (matMulR a b).length = a.length := by
  rw [matMulR, List.length_map]

theorem matMulR_getD (a b : RMat) (i : ℕ) (hi : i < a.length) :
    (matMulR a b).getD i [] =
      (List.range (ncolsR b)).map (fun (j : ℕ) => dotR (a.getD i []) (colR b j)) := by
  rw [matMulR, List.getD_eq_getElem _ _ (by rw [List.length_map]; exact hi),
    List.getElem_map, List.getD_eq_getElem _ _ hi]

theorem matMulR_getD_ge (a b : RMat) (i : ℕ) (hi : a.length ≤ i) :
    (matMulR a b).getD i [] = [] := by
  rw [matMulR, List.getD_eq_default _ _ (by rw [List.length_map]; exact hi)]

theorem scaleRM_length (c : ℝ) (m : RMat) : (scaleRM c m).length = m.length := by
  rw [scaleRM, List.length_map]

theorem scaleRM_getD (c : ℝ) (m : RMat) (i : ℕ) :
    (scaleRM c m).getD i [] = (m.getD i []).map (fun x => c * x) := by
  rw [scaleRM]
  rcases Nat.lt_or_ge i m.length with h | h
  · rw [List.getD_eq_getElem _ _ (by rw [List.length_map]; exact h), List.getElem_map,
      List.getD_eq_getElem _ _ h]
  · rw [List.getD_eq_default _ _ (by rw [List.length_map]; exact h),
      List.getD_eq_default _ _ h]
    rfl

theorem rget_scaleRM (c : ℝ) (m : RMat) (i j : ℕ) :
    rget (scaleRM c m) i j = c * rget m i j := by
  rw [rget, rget, scaleRM_getD]
  rcases Nat.lt_or_ge j (m.getD i []).length with h | h
  · rw [List.getD_eq_getElem _ _ (by rw [List.length_map]; exact h), List.getElem_map,
      List.getD_eq_getElem _ _ h]
  · rw [List.getD_eq_default _ _ (by rw [List.length_map]; exact h),
      List.getD_eq_default _ _ h, mul_zero]

/-- Left multiplication by the scaled identity scales the matrix. -/
theorem matMulR_scalar_left (c : ℝ) (B : RMat) {n : ℕ} (hB : B.length = n)
    (hrect : ∀ r ∈ B, r.length = n) (hn : 0 < n) :
    matMulR (scalarRMat c n) B = scaleRM c B := by
  have hcB : ncolsR B = n := ncolsR_eq_of_rect hB hrect hn
  have hrowlen : ∀ i : ℕ, i < n → (B.getD i []).length = n := by
    intro i hi
    have hiB : i < B.length := by rw [hB]; exact hi
    rw [List.getD_eq_getElem _ _ hiB]
    exact hrect _ (List.getElem_mem hiB)
  apply rmat_ext
  · rw [matMulR_length, scalarRMat_length, scaleRM_length, hB]
  · intro i
    rcases Nat.lt_or_ge i n with h | h
    · rw [matMulR_getD _ _ _ (by rw [scalarRMat_length]; exact h), List.length_map,
        List.length_range, hcB, scaleRM_getD, List.length_map, hrowlen i h]
    · rw [matMulR_getD_ge _ _ _ (by rw [scalarRMat_length]; exact h), scaleRM_getD,
        List.getD_eq_default _ _ (by rw [hB]; exact h)]
      rfl
  · intro i j
    rw [rget_scaleRM]
    rcases Nat.lt_or_ge i n with hi | hi
    · rcases Nat.lt_or_ge j n with hj | hj
      · rw [rget, matMulR_getD _ _ _ (by rw [scalarRMat_length]; exact hi), hcB,
          getD_range_map n _ 0 j hj, scalarRMat_getD c n i hi,
          dotR_delta c n (colR B j) (by rw [colR_length, hB]) i hi, colR_getD]
        rfl
      · rw [rget, matMulR_getD _ _ _ (by rw [scalarRMat_length]; exact hi), hcB,
          getD_range_map_ge n _ 0 j hj, rget,
          List.getD_eq_default _ _ (by rw [hrowlen i hi]; exact hj), mul_zero]
    · rw [rget, matMulR_getD_ge _ _ _ (by rw [scalarRMat_length]; exact hi), rget,
        show B.getD i [] = [] from List.getD_eq_default _ _ (by rw [hB]; exact hi),
        List.getD_nil, mul_zero]

/-- Right multiplication by the scaled identity scales the matrix. -/
theorem matMulR_scalar_right (c : ℝ) (B : RMat) {n : ℕ}
    (hrect : ∀ r ∈ B, r.length = n) (hn : 0 < n) :
    matMulR B (scalarRMat c n) = scaleRM c B := by
  have hrowlen : ∀ i : ℕ, i < B.length → (B.getD i []).length = n := by
    intro i hi
    rw [List.getD_eq_getElem _ _ hi]
    exact hrect _ (List.getElem_mem hi)
  have hrowlen_ge : ∀ i : ℕ, B.length ≤ i → (B.getD i []) = [] := by
    intro i hi
    exact List.getD_eq_default _ _ hi
  have hcol : ∀ (r : List ℝ), r.length = n → ∀ j : ℕ, j < n →
      dotR r (colR (scalarRMat c n) j) = c * r.getD j 0 := by
    intro r hr j hj
    have hc1 : colR (scalarRMat c n) j =
        (List.range n).map (fun (i : ℕ) => if j = i then c else 0) := by
      rw [colR, scalarRMat, List.map_map]
      apply List.map_congr_left
      intro i _
      simp only [Function.comp_apply]
      rw [getD_range_map n _ 0 j hj]
      by_cases h : i = j
      · rw [if_pos h, if_pos h.symm]
      · rw [if_neg h, if_neg (fun hh => h hh.symm)]
    rw [hc1, dotR_comm, dotR_delta c n r hr j hj]
  apply rmat_ext
  · rw [matMulR_length, scaleRM_length]
  · intro i
    rcases Nat.lt_or_ge i B.length with h | h
    · rw [matMulR_getD _ _ _ h, List.length_map, List.length_range,
        ncolsR_scalarRMat c hn, scaleRM_getD, List.length_map, hrowlen i h]
    · rw [matMulR_getD_ge _ _ _ h, scaleRM_getD, hrowlen_ge i h]
      rfl
  · intro i j
    rw [rget_scaleRM]
    rcases Nat.lt_or_ge i B.length with hi | hi
    · rcases Nat.lt_or_ge j n with hj | hj
      · rw [rget, matMulR_getD _ _ _ hi, ncolsR_scalarRMat c hn,
          getD_range_map n _ 0 j hj, hcol _ (hrowlen i hi) j hj]
        rfl
      · rw [rget, matMulR_getD _ _ _ hi, ncolsR_scalarRMat c hn,
          getD_range_map_ge n _ 0 j hj, rget,
          List.getD_eq_default _ _ (by rw [hrowlen i hi]; exact hj), mul_zero]
    · rw [rget, matMulR_getD_ge _ _ _ hi, rget, hrowlen_ge i hi, List.getD_nil, mul_zero]

theorem scaleRM_scalarRMat (c d : ℝ) (n : ℕ) :
    scaleRM c (scalarRMat d n) = scalarRMat (c * d) n := by
  rw [scaleRM, scalarRMat, scalarRMat, List.map_map]
  apply List.map_congr_left
  intro i _
  simp only [Function.comp_apply, List.map_map]
  apply List.map_congr_left
  intro j _
  simp only [Function.comp_apply]
  by_cases h : i = j
  · rw [if_pos h, if_pos h]
  · rw [if_neg h, if_neg h, mul_zero]

theorem scaleRM_scaleRM (c d : ℝ) (m : RMat) :
    scaleRM c (scaleRM d m) = scaleRM (c * d) m := by
  rw [scaleRM, scaleRM, scaleRM, List.map_map]
  apply List.map_congr_left
  intro r _
  simp only [Function.comp_apply, List.map_map]
  apply List.map_congr_left
  intro x _
  simp only [Function.comp_apply]
  rw [mul_assoc]

theorem scaleRM_one (m : RMat) : scaleRM 1 m = m := by
  simp [scaleRM, one_mul]

theorem transposeR_scalarRMat (c : ℝ) {n : ℕ} (hn : 0 < n) :
    transposeR (scalarRMat c n) = scalarRMat c n := by
  rw [transposeR, ncolsR_scalarRMat c hn]
  apply rmat_ext
  · rw [List.length_map, List.length_range, scalarRMat_length]
  · intro j
    rcases Nat.lt_or_ge j n with h | h
    · rw [getD_range_map n _ [] j h, colR_length, scalarRMat_length, scalarRMat_getD c n j h,
        List.length_map, List.length_range]
    · rw [getD_range_map_ge n _ [] j h, scalarRMat_getD_ge c n j h]
  · intro j i
    rcases Nat.lt_or_ge j n with hj | hj
    · rw [rget, getD_range_map n _ [] j hj, colR_getD]
      rcases Nat.lt_or_ge i n with hi | hi
      · rw [show ((scalarRMat c n).getD i []).getD j 0 = rget (scalarRMat c n) i j from
            rfl, rget_scalarRMat c n i j hi hj, rget_scalarRMat c n j i hj hi]
        by_cases h : i = j
        · rw [if_pos h, if_pos h.symm]
        · rw [if_neg h, if_neg (fun hh => h hh.symm)]
      · rw [show ((scalarRMat c n).getD i []).getD j 0 = rget (scalarRMat c n) i j from
            rfl, rget_scalarRMat_left c n i j hi, rget_scalarRMat_right c n j i hi]
    · rw [rget, getD_range_map_ge n _ [] j hj, List.getD_nil,
        rget_scalarRMat_left c n j i hj]

/-- The scaled identity `c·I` with `c ≠ 0` has `c⁻¹·I` as its
Moore–Penrose pseudo-inverse. -/
theorem isPinv_scalarRMat (c : ℝ) (hc : c ≠ 0) {n : ℕ} (hn : 0 < n) :
    IsPinv (scalarRMat c n) (scalarRMat c⁻¹ n) := by
  have hMN : matMulR (scalarRMat c n) (scalarRMat c⁻¹ n) = scalarRMat 1 n := by
    rw [matMulR_scalar_left c (scalarRMat c⁻¹ n) (scalarRMat_length c⁻¹ n)
      (scalarRMat_rows c⁻¹ n) hn, scaleRM_scalarRMat, mul_inv_cancel₀ hc]
  have hNM : matMulR (scalarRMat c⁻¹ n) (scalarRMat c n) = scalarRMat 1 n := by
    rw [matMulR_scalar_left c⁻¹ (scalarRMat c n) (scalarRMat_length c n)
      (scalarRMat_rows c n) hn, scaleRM_scalarRMat, inv_mul_cancel₀ hc]
  refine ⟨?_, ?_, ?_, ?_, ?_, ?_⟩
  · rw [scalarRMat_length, ncolsR_scalarRMat c hn]
  · intro r hr
    rw [scalarRMat_length]
    exact scalarRMat_rows c⁻¹ n r hr
  · rw [hMN, matMulR_scalar_left 1 (scalarRMat c n) (scalarRMat_length c n)
      (scalarRMat_rows c n) hn, scaleRM_scalarRMat, one_mul]
  · rw [hNM, matMulR_scalar_left 1 (scalarRMat c⁻¹ n) (scalarRMat_length c⁻¹ n)
      (scalarRMat_rows c⁻¹ n) hn, scaleRM_scalarRMat, one_mul]
  · rw [hMN, transposeR_scalarRMat 1 hn]
  · rw [hNM, transposeR_scalarRMat 1 hn]

/-- The Penrose equations pin `pinvR (c·I)` down to `c⁻¹·I`. -/
theorem pinvR_scalarRMat (c : ℝ) (hc : c ≠ 0) {n : ℕ} (hn : 0 < n) :
    pinvR (scalarRMat c n) = scalarRMat c⁻¹ n := by
  have hex : ∃ N, IsPinv (scalarRMat c n) N := ⟨_, isPinv_scalarRMat c hc hn⟩
  rw [pinvR, dif_pos hex]
  obtain ⟨hlen, hrows, h1, -, -, -⟩ := hex.choose_spec
  rw [ncolsR_scalarRMat c hn] at hlen
  have hrows' : ∀ r ∈ hex.choose, r.length = n := by
    intro r hr
    rw [hrows r hr, scalarRMat_length]
  have e1 : matMulR (scalarRMat c n) hex.choose = scaleRM c hex.choose :=
    matMulR_scalar_left c hex.choose hlen hrows' hn
  have e2 : matMulR (scaleRM c hex.choose) (scalarRMat c n) =
      scaleRM c (scaleRM c hex.choose) := by
    apply matMulR_scalar_right c (scaleRM c hex.choose) _ hn
    intro r hr
    rw [scaleRM] at hr
    obtain ⟨r0, hr0, rfl⟩ := List.mem_map.mp hr
    rw [List.length_map]
    exact hrows' r0 hr0
  rw [e1, e2, scaleRM_scaleRM] at h1
  have h2 := congrArg (scaleRM (c * c)⁻¹) h1
  rw [scaleRM_scaleRM, inv_mul_cancel₀ (mul_ne_zero hc hc), scaleRM_one,
    scaleRM_scalarRMat] at h2
  rw [h2]
  congr 1
  rw [mul_inv, mul_assoc, inv_mul_cancel₀ hc, mul_one]

/-! ## The C1 run: a negative quadratic form reaches the square root -/

/-- The scaled identity as float data. -/
def scalarMat (c : ℝ) (n : ℕ) : Mat :=
  (List.range n).map (fun (i : ℕ) =>
    (List.range n).map (fun (j : ℕ) => if i = j then (some c : RVal) else some 0))

theorem fsqrt_of_neg {x : ℝ} (h : x < 0) : fsqrt (some x) = none := by
  rw [show fsqrt (some x) = if x < 0 then none else some (Real.sqrt x) from rfl, if_pos h]

theorem rangeMap_getD_selfR (r : List RVal) :
    (List.range r.length).map (fun (j : ℕ) => r.getD j none) = r := by
  apply List.ext_getElem
  · rw [List.length_map, List.length_range]
  · intro j h1 h2
    simp only [List.getElem_map, List.getElem_range]
    rw [List.getD_eq_getElem _ _ h2]

theorem rowPQ_getD_some : ∀ j : ℕ, j < 36 → ∃ v, rowPQ.getD j none = some v := by
  intro j hj
  have hjr : j < rowPQ.length := by rw [rowPQ_length]; exact hj
  rw [List.getD_eq_getElem _ _ hjr]
  exact Option.isSome_iff_exists.mp (rowPQ_all_some _ (List.getElem_mem hjr))

/-- Four identical NaN-free rows: the column-wise nanmean returns the row. -/
theorem muDist_run1 : nanMeanCols 36 (List.replicate 4 rowPQ) = rowPQ := by
  rw [nanMeanCols]
  have hstep : ∀ j ∈ List.range 36,
      fmean ((colAt (List.replicate 4 rowPQ) j).filter (·.isSome)) =
        rowPQ.getD j none := by
    intro j hj
    rw [List.mem_range] at hj
    obtain ⟨v, hv⟩ := rowPQ_getD_some j hj
    have hfil : (List.replicate 4 (some v : RVal)).filter (·.isSome) =
        List.replicate 4 (some v) := by
      rw [List.filter_eq_self]
      intro a ha
      rw [List.eq_of_mem_replicate ha]
      rfl
    rw [colAt, List.map_replicate, hv, hfil, fmean_replicate_some 4 (by norm_num)]
  rw [List.map_congr_left hstep, show (36 : ℕ) = rowPQ.length from rowPQ_length.symm,
    rangeMap_getD_selfR]

theorem fsum_replicate_some (n : ℕ) (x : ℝ) :
    fsum (List.replicate n (some x)) = some ((n : ℝ) * x) := by
  rw [show List.replicate n (some x : RVal) = (List.replicate n x).map some from
      List.map_replicate.symm,
    fsum_map_some, List.sum_replicate, nsmul_eq_mul]

/-- Four identical rows: the sample covariance is the zero matrix. -/
theorem covDist_run1 : npCov 36 (List.replicate 4 rowPQ) =
    (List.range 36).map (fun (_ : ℕ) => (List.range 36).map (fun (_ : ℕ) =>
      (some (0 : ℝ) : RVal))) := by
  rw [npCov, if_neg (by simp)]
  apply List.map_congr_left
  intro i hi
  rw [List.mem_range] at hi
  apply List.map_congr_left
  intro j hj
  rw [List.mem_range] at hj
  obtain ⟨vi, hvi⟩ := rowPQ_getD_some i hi
  obtain ⟨vj, hvj⟩ := rowPQ_getD_some j hj
  have hmi : fmean (colAt (List.replicate 4 rowPQ) i) = some vi := by
    rw [colAt, List.map_replicate, hvi, fmean_replicate_some 4 (by norm_num)]
  have hmj : fmean (colAt (List.replicate 4 rowPQ) j) = some vj := by
    rw [colAt, List.map_replicate, hvj, fmean_replicate_some 4 (by norm_num)]
  rw [List.map_replicate, hvi, hvj, hmi, hmj, fsub_some, fsub_some, fmul_some,
    fsum_replicate_some, List.length_replicate,
    fdiv_some_of_ne _ (show ((4 : ℕ) : ℝ) - 1 ≠ 0 by norm_num)]
  congr 1
  simp [sub_self]

theorem zipWith_range_map {α β γ : Type} (n : ℕ) (f : ℕ → α) (g : ℕ → β)
    (h : α → β → γ) :
    List.zipWith h ((List.range n).map f) ((List.range n).map g) =
      (List.range n).map (fun (i : ℕ) => h (f i) (g i)) := by
  apply List.ext_getElem
  · simp
  · intro i h1 h2
    simp only [List.getElem_zipWith, List.getElem_map, List.getElem_range]

/-- Pooling the caller's `−2·I` with the zero distortion covariance gives
`−1·I` (entrywise `(x + 0) / 2`). -/
theorem pooled_run1 :
    pooledCov (scalarMat (-2) 36) ((List.range 36).map (fun (_ : ℕ) =>
      (List.range 36).map (fun (_ : ℕ) => (some (0 : ℝ) : RVal)))) =
      scalarMat (-1) 36 := by
  rw [pooledCov, scalarMat, zipWith_range_map, List.map_map]
  conv_rhs => rw [scalarMat]
  apply List.map_congr_left
  intro i _
  simp only [Function.comp_apply]
  rw [zipWith_range_map, List.map_map]
  apply List.map_congr_left
  intro j _
  simp only [Function.comp_apply]
  by_cases h : i = j
  · rw [if_pos h, if_pos h, fadd_some,
      fdiv_some_of_ne _ (show (2 : ℝ) ≠ 0 by norm_num)]
    congr 1
    norm_num
  · rw [if_neg h, if_neg h, fadd_some,
      fdiv_some_of_ne _ (show (2 : ℝ) ≠ 0 by norm_num)]
    congr 1
    norm_num

theorem matHasNaN_scalarMat (c : ℝ) (n : ℕ) : matHasNaN (scalarMat c n) = false := by
  rw [matHasNaN, List.any_eq_false]
  intro r hr
  rw [scalarMat] at hr
  obtain ⟨i, -, rfl⟩ := List.mem_map.mp hr
  have h2 : ((List.range n).map (fun (j : ℕ) =>
      if i = j then (some c : RVal) else some 0)).any (·.isNone) = false := by
    rw [List.any_eq_false]
    intro x hx
    obtain ⟨j, -, rfl⟩ := List.mem_map.mp hx
    by_cases h : i = j
    · rw [if_pos h]
      simp
    · rw [if_neg h]
      simp
  rw [h2]
  simp

theorem toRMat_scalarMat (c : ℝ) (n : ℕ) : toRMat (scalarMat c n) = scalarRMat c n := by
  rw [toRMat, scalarMat, scalarRMat, List.map_map]
  apply List.map_congr_left
  intro i _
  simp only [Function.comp_apply, List.map_map]
  apply List.map_congr_left
  intro j _
  simp only [Function.comp_apply]
  by_cases h : i = j
  · rw [if_pos h, if_pos h]
    rfl
  · rw [if_neg h, if_neg h]
    rfl

theorem ncols_eq_getD (m : Mat) : ncols m = (m.getD 0 []).length := by
  rw [ncols, List.getD_eq_getElem?_getD, ← List.head?_eq_getElem?]

theorem ofRMat_getD (m : RMat) (i : ℕ) (hi : i < m.length) :
    (ofRMat m).getD i [] = (m.getD i []).map some := by
  rw [ofRMat, List.getD_eq_getElem _ _ (by rw [List.length_map]; exact hi),
    List.getElem_map, List.getD_eq_getElem _ _ hi]

theorem ncols_ofRMat_scalarRMat (c : ℝ) {n : ℕ} (hn : 0 < n) :
    ncols (ofRMat (scalarRMat c n)) = n := by
  rw [ncols_eq_getD, ofRMat_getD _ _ (by rw [scalarRMat_length]; exact hn),
    List.length_map, scalarRMat_getD c n 0 hn, List.length_map, List.length_range]

theorem colAt_ofRMat_scalarRMat (c : ℝ) (n j : ℕ) (hj : j < n) :
    colAt (ofRMat (scalarRMat c n)) j =
      ((List.range n).map (fun (i : ℕ) => if i = j then c else 0)).map some := by
  rw [colAt, ofRMat, scalarRMat, List.map_map, List.map_map, List.map_map]
  apply List.map_congr_left
  intro i _
  simp only [Function.comp_apply]
  rw [List.map_map, getD_range_map n _ none j hj]
  rfl

theorem zipWith_fsub_zero_map_some (u : List ℝ) :
    List.zipWith fsub (List.replicate u.length (some 0)) (u.map some) =
      (u.map (fun v => 0 - v)).map some := by
  induction u with
  | nil => rfl
  | cons x xs ih =>
      rw [List.map_cons, List.length_cons, List.replicate_succ, List.zipWith_cons_cons,
        fsub_some, List.map_cons, List.map_cons, ih]

theorem zipWith_fmul_map_some (a b : List ℝ) :
    List.zipWith fmul (a.map some) (b.map some) =
      (List.zipWith (· * ·) a b).map some := by
  induction a generalizing b with
  | nil => rfl
  | cons x xs ih =>
      cases b with
      | nil => rfl
      | cons y ys =>
          rw [List.map_cons, List.map_cons, List.zipWith_cons_cons, fmul_some,
            List.zipWith_cons_cons, List.map_cons, ih]

theorem npDot_map_some (a b : List ℝ) :
    npDot (a.map some) (b.map some) = some ((List.zipWith (· * ·) a b).sum) := by
  rw [npDot, zipWith_fmul_map_some, fsum_map_some]

theorem zipWith_mul_negone_self (w : List ℝ) :
    (List.zipWith (· * ·) (w.map (fun x => (-1 : ℝ) * x)) w).sum =
      -((w.map (fun x => x * x)).sum) := by
  induction w with
  | nil => simp
  | cons x xs ih =>
      rw [List.map_cons, List.zipWith_cons_cons, List.sum_cons, ih, List.map_cons,
        List.sum_cons]
      ring

theorem sum_sq_ge_entry (u : List ℝ) (i : ℕ) (hi : i < u.length) :
    (u.getD i 0) ^ 2 ≤ (u.map (fun x => x * x)).sum := by
  induction u generalizing i with
  | nil => simp at hi
  | cons x xs ih =>
      rw [List.map_cons, List.sum_cons]
      cases i with
      | zero =>
          rw [List.getD_cons_zero, sq]
          have h : 0 ≤ (xs.map (fun x => x * x)).sum := by
            apply List.sum_nonneg
            intro y hy
            obtain ⟨z, -, rfl⟩ := List.mem_map.mp hy
            exact mul_self_nonneg z
          linarith
      | succ k =>
          rw [List.getD_cons_succ]
          have h1 := ih k (by simpa using hi)
          have h2 : 0 ≤ x * x := mul_self_nonneg x
          linarith

theorem rangeMap_getD (r : List ℝ) (f : ℝ → ℝ) :
    (List.range r.length).map (fun (j : ℕ) => f (r.getD j 0)) = r.map f := by
  apply List.ext_getElem
  · rw [List.length_map, List.length_range, List.length_map]
  · intro j h1 h2
    simp only [List.getElem_map, List.getElem_range]
    rw [List.getD_eq_getElem _ _ (by rwa [List.length_map] at h2)]

/-- Multiplying a real vector by `c·I` (wrapped as float data) scales it. -/
theorem npVecMat_scalar (w : List ℝ) (n : ℕ) (hw : w.length = n) (hn : 0 < n) (c : ℝ) :
    npVecMat (w.map some) (ofRMat (scalarRMat c n)) =
      (w.map (fun x => c * x)).map some := by
  rw [npVecMat, ncols_ofRMat_scalarRMat c hn]
  have hstep : ∀ j ∈ List.range n,
      fsum (List.zipWith fmul (w.map some) (colAt (ofRMat (scalarRMat c n)) j)) =
      (some (c * w.getD j 0) : RVal) := by
    intro j hj
    rw [List.mem_range] at hj
    rw [colAt_ofRMat_scalarRMat c n j hj, zipWith_fmul_map_some, fsum_map_some]
    have hd : (List.zipWith (· * ·) w ((List.range n).map (fun (i : ℕ) =>
        if i = j then c else 0))).sum =
        dotR w ((List.range n).map (fun (i : ℕ) => if i = j then c else 0)) := rfl
    have hflip : (List.range n).map (fun (i : ℕ) => if i = j then c else 0) =
        (List.range n).map (fun (i : ℕ) => if j = i then c else 0) := by
      apply List.map_congr_left
      intro a _
      by_cases h : a = j
      · rw [if_pos h, if_pos h.symm]
      · rw [if_neg h, if_neg (fun hh => h hh.symm)]
    rw [hd, dotR_comm, hflip, dotR_delta c n w hw j hj]
  rw [List.map_congr_left hstep,
    show (List.range n).map (fun (j : ℕ) => (some (c * w.getD j 0) : RVal)) =
      ((List.range n).map (fun (j : ℕ) => c * w.getD j 0)).map some from by
        rw [List.map_map]; rfl, ← hw]
  congr 1
  exact rangeMap_getD w (fun x => c * x)

/-- The real contents of the (all-real) ±1-run feature row. -/
def uPQ : List ℝ := rowPQ.map (fun x => x.getD 0)

theorem uPQ_length : uPQ.length = 36 := by
  rw [uPQ, List.length_map, rowPQ_length]

theorem rowPQ_eq_map_some : rowPQ = uPQ.map some := by
  rw [uPQ, List.map_map]
  conv_lhs => rw [← List.map_id rowPQ]
  apply List.map_congr_left
  intro x hx
  have h := rowPQ_all_some x hx
  cases x with
  | none => simp at h
  | some v => rfl

theorem rowPQ_head : rowPQ.getD 0 none = some (estimate_aggd_param (npFlatten blkP)).1 :=
  rfl

theorem uPQ_head : uPQ.getD 0 0 = (estimate_aggd_param (npFlatten blkP)).1 := by
  have h0r : 0 < rowPQ.length := by rw [rowPQ_length]; norm_num
  have h := rowPQ_head
  rw [List.getD_eq_getElem _ _ h0r] at h
  rw [uPQ, List.getD_eq_getElem _ _ (by rw [List.length_map]; exact h0r),
    List.getElem_map, h]
  rfl

/-- The complete C1 run: 8×8 ±1 image, trivial window, 4×4 blocks, zero
pristine mean, pristine covariance `−2·I₃₆`.  All four feature rows are
real and identical, so the distortion covariance is zero and the pooled
matrix is `−1·I₃₆`, whose pseudo-inverse is itself; the quadratic form is
`−‖mu_dist‖² ≤ −α² < 0 `, and `np.sqrt` of it is NaN: the run returns NaN
instead of a clamped non-negative score. -/
theorem niqe_img8_negquad_nan :
    niqe (NpArr.d2 img8) (List.replicate 36 (some 0)) (scalarMat (-2) 36) win0 4 4 =
      .ok none := by
  rw [niqe, niqeDistparam_img8]
  show niqeAggregate _ _ _ = _
  rw [niqeAggregate, show compute_feature blkP ++ compute_feature blkQ = rowPQ from rfl]
  have hp : ((List.replicate 4 rowPQ).head?.getD []).length = 36 := by
    rw [show List.replicate 4 rowPQ = rowPQ :: List.replicate 3 rowPQ from rfl]
    simp only [List.head?_cons, Option.getD_some]
    exact rowPQ_length
  rw [hp]
  have hkept : dropNaNRows (List.replicate 4 rowPQ) = List.replicate 4 rowPQ := by
    rw [dropNaNRows, List.filter_eq_self]
    intro r hr
    rw [List.eq_of_mem_replicate hr]
    exact rowPQ_noNaN
  rw [hkept, covDist_run1, pooled_run1, muDist_run1]
  have hpinv : npPinv (scalarMat (-1) 36) = .ok (ofRMat (scalarRMat (-1) 36)) := by
    rw [npPinv, if_neg (by rw [matHasNaN_scalarMat]; simp), toRMat_scalarMat,
      pinvR_scalarRMat (-1) (by norm_num) (by norm_num), inv_neg_one]
  rw [hpinv]
  have hdiff : List.zipWith fsub (List.replicate 36 (some 0)) rowPQ =
      (uPQ.map (fun v => 0 - v)).map some := by
    rw [show (36 : ℕ) = uPQ.length from uPQ_length.symm, rowPQ_eq_map_some,
      zipWith_fsub_zero_map_some]
  rw [hdiff]
  show Except.ok (niqeScoreOfQuad (npDot (npVecMat
      ((uPQ.map (fun v => 0 - v)).map some) (ofRMat (scalarRMat (-1) 36)))
      ((uPQ.map (fun v => 0 - v)).map some))) = Except.ok (none : RVal)
  rw [npVecMat_scalar (uPQ.map (fun v => 0 - v)) 36
      (by rw [List.length_map, uPQ_length]) (by norm_num) (-1),
    npDot_map_some, zipWith_mul_negone_self]
  have halpha : (1 / 5 : ℝ) ≤ (estimate_aggd_param (npFlatten blkP)).1 := by
    simp only [estimate_aggd_param]
    exact aggdAlpha_fifth_le _
  have hw0 : (uPQ.map (fun v => 0 - v)).getD 0 0 = 0 - uPQ.getD 0 0 := by
    have h0 : 0 < uPQ.length := by rw [uPQ_length]; norm_num
    rw [List.getD_eq_getElem _ _ (by rw [List.length_map]; exact h0), List.getElem_map,
      List.getD_eq_getElem _ _ h0]
  have hsq : (1 / 25 : ℝ) ≤ ((uPQ.map (fun v => 0 - v)).getD 0 0) ^ 2 := by
    rw [hw0, uPQ_head, show (0 - (estimate_aggd_param (npFlatten blkP)).1) ^ 2 =
      ((estimate_aggd_param (npFlatten blkP)).1) ^ 2 from by ring]
    calc (1 / 25 : ℝ) = (1 / 5 : ℝ) ^ 2 := by norm_num
    _ ≤ ((estimate_aggd_param (npFlatten blkP)).1) ^ 2 :=
        pow_le_pow_left (by norm_num) halpha 2
  have hge := sum_sq_ge_entry (uPQ.map (fun v => 0 - v)) 0
      (by rw [List.length_map, uPQ_length]; norm_num)
  have hneg : -(((uPQ.map (fun v => 0 - v)).map (fun x => x * x)).sum) < 0 := by
    have : (0 : ℝ) < ((uPQ.map (fun v => 0 - v)).map (fun x => x * x)).sum := by
      calc (0 : ℝ) < 1 / 25 := by norm_num
      _ ≤ ((uPQ.map (fun v => 0 - v)).getD 0 0) ^ 2 := hsq
      _ ≤ _ := hge
    linarith
  rw [niqeScoreOfQuad, fsqrt_of_neg hneg]

/-- C1: the spec claims a negative quadratic form is clamped to zero
before the square root.  The code (niqe.py line 127) applies `np.sqrt`
directly with no clamping: for every strictly negative quadratic form the
score is NaN, not a clamped non-negative real. -/
theorem C1_sqrt_not_clamped (q : ℝ) (h : q < 0) :
    niqeScoreOfQuad (some q) = none := by
  rw [niqeScoreOfQuad, fsqrt_of_neg h]

theorem C1_witness : (-1 : ℝ) < 0 ∧ niqeScoreOfQuad (some (-1)) = none :=
  ⟨by norm_num, C1_sqrt_not_clamped (-1) (by norm_num)⟩

/-- C1 counterexample: an accepted end-to-end run returning NaN.  The 8×8
±1 image with the trivial window and 4×4 blocks yields four identical
all-real feature rows, hence a zero distortion covariance; with pristine
mean 0 and pristine covariance `−2·I₃₆` the pooled matrix is `−1·I₃₆`,
the quadratic form is strictly negative, and the returned score is NaN
(`.ok none`) — not a non-negative real, refuting the claimed clamping. -/
theorem C1_counterexample_negative_quadratic_nan :
    niqe (NpArr.d2 img8) (List.replicate 36 (some 0)) (scalarMat (-2) 36) win0 4 4 =
      .ok none :=
  niqe_img8_negquad_nan
